import Mathlib

/-!
Verification of the core link pipeline of the mold linker (x86-64),
shallowly embedded from `main.cc` and `input_sections.cc`.

Addresses, offsets and sizes are modelled as `Nat` (the source uses
non-negative `u64`/`i64` values); relocation addends are `Int` (`i64`);
machine-word writes are truncated with an explicit `% 2^(8*w)`.
-/

namespace Mold

/-! ## ELF constants (values fixed by the ELF ABI, used via mold.h/elf.h) -/

def SHT_PROGBITS : Nat := 1
def SHT_NOTE : Nat := 7
def SHT_NOBITS : Nat := 8
def SHF_WRITE : Nat := 1
def SHF_ALLOC : Nat := 2
def SHF_EXECINSTR : Nat := 4
def SHF_TLS : Nat := 1024

def R_X86_64_NONE : Nat := 0
def R_X86_64_64 : Nat := 1
def R_X86_64_PC32 : Nat := 2
def R_X86_64_GOT32 : Nat := 3
def R_X86_64_PLT32 : Nat := 4
def R_X86_64_GOTPCREL : Nat := 9
def R_X86_64_32 : Nat := 10
def R_X86_64_32S : Nat := 11
def R_X86_64_16 : Nat := 12
def R_X86_64_PC16 : Nat := 13
def R_X86_64_8 : Nat := 14
def R_X86_64_PC8 : Nat := 15
def R_X86_64_DTPOFF64 : Nat := 17
def R_X86_64_TPOFF64 : Nat := 18
def R_X86_64_TLSGD : Nat := 19
def R_X86_64_TLSLD : Nat := 20
def R_X86_64_DTPOFF32 : Nat := 21
def R_X86_64_GOTTPOFF : Nat := 22
def R_X86_64_TPOFF32 : Nat := 23
def R_X86_64_PC64 : Nat := 24
def R_X86_64_GOTPC32 : Nat := 26
def R_X86_64_GOTPCRELX : Nat := 41
def R_X86_64_REX_GOTPCRELX : Nat := 42

def STT_OBJECT : Nat := 1
def STT_GNU_IFUNC : Nat := 10

/-- Modelled from the spec: `PAGE_SIZE` is the x86-64 page size constant of
mold.h (4096), used by the §4.5 layout ("round vaddr up to PAGE_SIZE"). -/
def PAGE_SIZE : Nat := 4096

/-- Modelled from the spec: `align_to(x, a)` from mold.h rounds `x` up to the
next multiple of the alignment `a` ("Round both to the chunk's alignment"). -/
def align_to (x a : Nat) : Nat := ((x + a - 1) / a) * a

theorem le_align_to (x : Nat) {a : Nat} (ha : 0 < a) : x ≤ align_to x a := by
  unfold align_to
  have h1 := Nat.div_add_mod (x + a - 1) a
  have h2 := Nat.mod_lt (x + a - 1) ha
  rw [Nat.mul_comm]
  generalize hA : a * ((x + a - 1) / a) = A at h1
  omega

theorem align_to_lt (x : Nat) {a : Nat} (ha : 0 < a) : align_to x a < x + a := by
  unfold align_to
  have h1 := Nat.div_mul_le_self (x + a - 1) a
  omega

theorem dvd_align_to (x a : Nat) : a ∣ align_to x a :=
  dvd_mul_left a _

theorem align_to_unique {x a m : Nat} (ha : 0 < a) (hm : a ∣ m)
    (h1 : x ≤ m) (h2 : m < x + a) : m = align_to x a := by
  have hd := dvd_align_to x a
  have hle := le_align_to x ha
  have hlt := align_to_lt x ha
  rcases Nat.lt_or_ge m (align_to x a) with h | h
  · exfalso
    have hsub : a ∣ align_to x a - m := Nat.dvd_sub' hd hm
    have hz : align_to x a - m = 0 := Nat.eq_zero_of_dvd_of_lt hsub (by omega)
    omega
  · rcases Nat.lt_or_ge (align_to x a) m with h' | h'
    · exfalso
      have hsub : a ∣ m - align_to x a := Nat.dvd_sub' hm hd
      have hz : m - align_to x a = 0 := Nat.eq_zero_of_dvd_of_lt hsub (by omega)
      omega
    · omega

theorem align_to_mod_congr {a b x y : Nat} (ha : 0 < a) (hab : a ∣ b)
    (hxy : x % b = y % b) : align_to x a % b = align_to y a % b := by
  -- the padding added to x
  have hxle := le_align_to x ha
  set d := align_to x a - x with hd
  have hxa : align_to x a = x + d := by omega
  -- y + d is the aligned value of y as well
  have hya : align_to y a = y + d := by
    symm
    apply align_to_unique ha
    · -- a ∣ y + d, from a ∣ x + d and x ≡ y [MOD a]
      have hmoda : x % a = y % a := by
        have hx : x % a = x % b % a := (Nat.mod_mod_of_dvd x hab).symm
        have hy : y % a = y % b % a := (Nat.mod_mod_of_dvd y hab).symm
        rw [hx, hy, hxy]
      have h1 : (y + d) % a = (x + d) % a := by
        rw [Nat.add_mod, Nat.add_mod x d, hmoda]
      have h2 : (x + d) % a = 0 := by
        rw [← hxa]
        obtain ⟨k, hk⟩ := dvd_align_to x a
        rw [hk, Nat.mul_mod_right]
      exact Nat.dvd_of_mod_eq_zero (h1.trans h2)
    · omega
    · have := align_to_lt x ha
      omega
  rw [hxa, hya, Nat.add_mod, Nat.add_mod y d, hxy]

/-! ## Section headers and the output-section rank (main.cc, get_section_rank) -/

/-- An ELF section header, with the fields the embedded passes read/write. -/
structure ElfShdr where
  sh_type : Nat := 0
  sh_flags : Nat := 0
  sh_addr : Nat := 0
  sh_offset : Nat := 0
  sh_size : Nat := 0
  sh_addralign : Nat := 0
  deriving DecidableEq, Repr

instance : Inhabited ElfShdr := ⟨{}⟩

/-- The rank value as a function of the six classification bits
(body of the return expression of `get_section_rank`, main.cc:597). -/
def rankBits (note alloc writable exec tls nobits : Bool) : Nat :=
  ((!note).toNat <<< 6) ||| ((!alloc).toNat <<< 5) ||| (writable.toNat <<< 4) |||
  (exec.toNat <<< 3) ||| ((!tls).toNat <<< 2) ||| nobits.toNat

/-- Embeds `get_section_rank` (main.cc:590). -/
def get_section_rank (shdr : ElfShdr) : Nat :=
  rankBits (shdr.sh_type == SHT_NOTE) (shdr.sh_flags &&& SHF_ALLOC != 0)
    (shdr.sh_flags &&& SHF_WRITE != 0) (shdr.sh_flags &&& SHF_EXECINSTR != 0)
    (shdr.sh_flags &&& SHF_TLS != 0) (shdr.sh_type == SHT_NOBITS)

/-- The bit tuple `(!note, !alloc, writable, exec, !tls, nobits)` of a header,
in the order given by the spec (high to low). -/
def rankTuple (shdr : ElfShdr) : Bool × Bool × Bool × Bool × Bool × Bool :=
  (!(shdr.sh_type == SHT_NOTE), !(shdr.sh_flags &&& SHF_ALLOC != 0),
   shdr.sh_flags &&& SHF_WRITE != 0, shdr.sh_flags &&& SHF_EXECINSTR != 0,
   !(shdr.sh_flags &&& SHF_TLS != 0), shdr.sh_type == SHT_NOBITS)

/-- Lexicographic strict order on the six-bit tuple, `false < true`. -/
def tupleLt : Bool × Bool × Bool × Bool × Bool × Bool →
    Bool × Bool × Bool × Bool × Bool × Bool → Bool
  | (a1, a2, a3, a4, a5, a6), (b1, b2, b3, b4, b5, b6) =>
    (!a1 && b1) || (a1 == b1 &&
      ((!a2 && b2) || (a2 == b2 &&
        ((!a3 && b3) || (a3 == b3 &&
          ((!a4 && b4) || (a4 == b4 &&
            ((!a5 && b5) || (a5 == b5 && (!a6 && b6))))))))))

theorem rankBits_lt_iff_tupleLt (n a w x t nb n' a' w' x' t' nb' : Bool) :
    rankBits n a w x t nb < rankBits n' a' w' x' t' nb' ↔
      tupleLt (!n, !a, w, x, !t, nb) (!n', !a', w', x', !t', nb') = true := by
  revert n a w x t nb n' a' w' x' t' nb'
  decide

/-- Representative headers for the eight output categories of the spec. -/
def noteShdr : ElfShdr := { sh_type := SHT_NOTE, sh_flags := SHF_ALLOC }
def roDataShdr : ElfShdr := { sh_type := SHT_PROGBITS, sh_flags := SHF_ALLOC }
def roCodeShdr : ElfShdr :=
  { sh_type := SHT_PROGBITS, sh_flags := SHF_ALLOC + SHF_EXECINSTR }
def tdataShdr : ElfShdr :=
  { sh_type := SHT_PROGBITS, sh_flags := SHF_ALLOC + SHF_WRITE + SHF_TLS }
def tbssShdr : ElfShdr :=
  { sh_type := SHT_NOBITS, sh_flags := SHF_ALLOC + SHF_WRITE + SHF_TLS }
def rwDataShdr : ElfShdr :=
  { sh_type := SHT_PROGBITS, sh_flags := SHF_ALLOC + SHF_WRITE }
def bssShdr : ElfShdr := { sh_type := SHT_NOBITS, sh_flags := SHF_ALLOC + SHF_WRITE }
def nonallocShdr : ElfShdr := { sh_type := SHT_PROGBITS, sh_flags := 0 }

/-- C6: for every pair of section headers, comparing their `get_section_rank`
values orders them exactly by lexicographic comparison of the bit tuple
`(!note, !alloc, writable, exec, !tls, nobits)`; consequently ascending rank
puts the eight categories in the order NOTE, alloc-RO-data, alloc-RO-code,
alloc-RW-tdata, alloc-RW-tbss, alloc-RW-data, alloc-RW-bss, non-alloc. -/
theorem C6_section_rank_order :
    (∀ s1 s2 : ElfShdr, get_section_rank s1 < get_section_rank s2 ↔
      tupleLt (rankTuple s1) (rankTuple s2) = true) ∧
    (get_section_rank noteShdr < get_section_rank roDataShdr ∧
     get_section_rank roDataShdr < get_section_rank roCodeShdr ∧
     get_section_rank roCodeShdr < get_section_rank tdataShdr ∧
     get_section_rank tdataShdr < get_section_rank tbssShdr ∧
     get_section_rank tbssShdr < get_section_rank rwDataShdr ∧
     get_section_rank rwDataShdr < get_section_rank bssShdr ∧
     get_section_rank bssShdr < get_section_rank nonallocShdr) := by
  constructor
  · intro s1 s2
    exact rankBits_lt_iff_tupleLt _ _ _ _ _ _ _ _ _ _ _ _
  · decide

/-! ## Output chunk layout: set_osec_offsets (main.cc:601) -/

/-- An output chunk: the `starts_new_ptload` flag and the section header,
the fields `set_osec_offsets` reads and writes. -/
structure OutputChunk where
  starts_new_ptload : Bool := false
  shdr : ElfShdr := {}
  deriving DecidableEq, Repr

instance : Inhabited OutputChunk := ⟨{}⟩

theorem mod_eq_zero_of_dvd {a n : Nat} (h : a ∣ n) : n % a = 0 := by
  obtain ⟨k, hk⟩ := h
  simp [hk]

/-- One iteration of the `set_osec_offsets` loop (main.cc:607-630): returns
the new `fileoff`, the new `vaddr`, and the chunk with its header updated. -/
def osec_step (fileoff vaddr : Nat) (c : OutputChunk) : Nat × Nat × OutputChunk :=
  let vaddr := if c.starts_new_ptload then align_to vaddr PAGE_SIZE else vaddr
  let fileoff :=
    if vaddr % PAGE_SIZE > fileoff % PAGE_SIZE then
      fileoff + (vaddr % PAGE_SIZE - fileoff % PAGE_SIZE)
    else if vaddr % PAGE_SIZE < fileoff % PAGE_SIZE then
      align_to fileoff PAGE_SIZE + vaddr % PAGE_SIZE
    else fileoff
  let fileoff := align_to fileoff c.shdr.sh_addralign
  let vaddr := align_to vaddr c.shdr.sh_addralign
  let shdr := { c.shdr with sh_offset := fileoff }
  let shdr := if c.shdr.sh_flags &&& SHF_ALLOC != 0 then { shdr with sh_addr := vaddr } else shdr
  let is_bss := c.shdr.sh_type == SHT_NOBITS
  let fileoff := if !is_bss then fileoff + c.shdr.sh_size else fileoff
  let is_tbss := is_bss && (c.shdr.sh_flags &&& SHF_TLS != 0)
  let vaddr := if !is_tbss then vaddr + c.shdr.sh_size else vaddr
  (fileoff, vaddr, { c with shdr := shdr })

/-- The `set_osec_offsets` loop over the chunk list; also returns the final
`fileoff` (the file size returned at main.cc:631). -/
def set_osec_offsets_go (fileoff vaddr : Nat) : List OutputChunk → List OutputChunk × Nat
  | [] => ([], fileoff)
  | c :: cs =>
    let s := osec_step fileoff vaddr c
    let r := set_osec_offsets_go s.1 s.2.1 cs
    (s.2.2 :: r.1, r.2)

/-- Embeds `set_osec_offsets` (main.cc:601): `fileoff = 0`,
`vaddr = config.image_base`. -/
def set_osec_offsets (image_base : Nat) (chunks : List OutputChunk) :
    List OutputChunk × Nat :=
  set_osec_offsets_go 0 image_base chunks

theorem PAGE_SIZE_pos : 0 < PAGE_SIZE := by norm_num [PAGE_SIZE]

/-- The file-offset rectification step makes `fileoff ≡ vaddr (mod PAGE_SIZE)`. -/
theorem rectify_mod (f v : Nat) :
    (if v % PAGE_SIZE > f % PAGE_SIZE then f + (v % PAGE_SIZE - f % PAGE_SIZE)
     else if v % PAGE_SIZE < f % PAGE_SIZE then align_to f PAGE_SIZE + v % PAGE_SIZE
     else f) % PAGE_SIZE = v % PAGE_SIZE := by
  have hP := PAGE_SIZE_pos
  have hfm := Nat.mod_lt f hP
  have hvm := Nat.mod_lt v hP
  split
  · rename_i h
    rw [Nat.add_mod]
    have hd : (v % PAGE_SIZE - f % PAGE_SIZE) % PAGE_SIZE =
        v % PAGE_SIZE - f % PAGE_SIZE := Nat.mod_eq_of_lt (by omega)
    rw [hd]
    have he : f % PAGE_SIZE + (v % PAGE_SIZE - f % PAGE_SIZE) = v % PAGE_SIZE := by
      omega
    rw [he, Nat.mod_eq_of_lt hvm]
  · split
    · rename_i h
      rw [Nat.add_mod, mod_eq_zero_of_dvd (dvd_align_to f PAGE_SIZE)]
      simp [Nat.mod_eq_of_lt hvm, Nat.mod_mod_of_dvd]
    · rename_i h1 h2
      omega

theorem pow2_dvd_of_le {k j : Nat} (h : 2 ^ k ≤ 2 ^ j) : (2:Nat) ^ k ∣ 2 ^ j := by
  apply Nat.pow_dvd_pow
  by_contra hc
  push_neg at hc
  have h2 : (2:Nat) ^ j < 2 ^ k := Nat.pow_lt_pow_right (by norm_num) hc
  omega

/-- The single-step correctness of `osec_step`: the assigned `sh_offset` is
aligned, and for allocated chunks `sh_addr ≡ sh_offset (mod PAGE_SIZE)`. -/
theorem osec_step_props (fileoff vaddr : Nat) (c : OutputChunk)
    (hpow : ∃ k, c.shdr.sh_addralign = 2 ^ k)
    (hle : c.shdr.sh_addralign ≤ PAGE_SIZE) :
    let c' := (osec_step fileoff vaddr c).2.2
    c'.shdr.sh_addralign = c.shdr.sh_addralign ∧
    c'.shdr.sh_flags = c.shdr.sh_flags ∧
    c'.shdr.sh_offset % c'.shdr.sh_addralign = 0 ∧
    (c'.shdr.sh_flags &&& SHF_ALLOC != 0 →
      c'.shdr.sh_addr % PAGE_SIZE = c'.shdr.sh_offset % PAGE_SIZE) := by
  obtain ⟨k, hk⟩ := hpow
  have ha : 0 < c.shdr.sh_addralign := by rw [hk]; positivity
  have hdvdP : c.shdr.sh_addralign ∣ PAGE_SIZE := by
    rw [hk]
    have : PAGE_SIZE = 2 ^ 12 := by norm_num [PAGE_SIZE]
    rw [this]
    exact pow2_dvd_of_le (by rw [← hk, ← this]; exact hle)
  set v1 := if c.starts_new_ptload then align_to vaddr PAGE_SIZE else vaddr with hv1
  set f1 := if v1 % PAGE_SIZE > fileoff % PAGE_SIZE then
      fileoff + (v1 % PAGE_SIZE - fileoff % PAGE_SIZE)
    else if v1 % PAGE_SIZE < fileoff % PAGE_SIZE then
      align_to fileoff PAGE_SIZE + v1 % PAGE_SIZE
    else fileoff with hf1
  have hcong : f1 % PAGE_SIZE = v1 % PAGE_SIZE := by rw [hf1]; exact rectify_mod fileoff v1
  have hoff : align_to f1 c.shdr.sh_addralign % c.shdr.sh_addralign = 0 :=
    mod_eq_zero_of_dvd (dvd_align_to _ _)
  have haddr : align_to v1 c.shdr.sh_addralign % PAGE_SIZE =
      align_to f1 c.shdr.sh_addralign % PAGE_SIZE :=
    align_to_mod_congr ha hdvdP (hcong.symm)
  simp only [osec_step]
  split
  · exact ⟨rfl, rfl, hoff, fun _ => haddr⟩
  · refine ⟨rfl, rfl, hoff, fun hc => ?_⟩
    rename_i halloc
    exact absurd hc halloc

/-- C4: after `set_osec_offsets` runs over any chunk list whose alignments are
powers of two at most `PAGE_SIZE`, every chunk has `sh_offset` a multiple of
`sh_addralign`, and every `SHF_ALLOC` chunk has
`sh_addr % PAGE_SIZE = sh_offset % PAGE_SIZE`. -/
theorem set_osec_offsets_go_props (chunks : List OutputChunk)
    (hpre : ∀ c ∈ chunks, (∃ k, c.shdr.sh_addralign = 2 ^ k) ∧
      c.shdr.sh_addralign ≤ PAGE_SIZE) :
    ∀ fileoff vaddr, ∀ c' ∈ (set_osec_offsets_go fileoff vaddr chunks).1,
      c'.shdr.sh_offset % c'.shdr.sh_addralign = 0 ∧
      (c'.shdr.sh_flags &&& SHF_ALLOC != 0 →
        c'.shdr.sh_addr % PAGE_SIZE = c'.shdr.sh_offset % PAGE_SIZE) := by
  induction chunks with
  | nil => intro fileoff vaddr c' hc'; simp [set_osec_offsets_go] at hc'
  | cons c cs ih =>
    intro fileoff vaddr c' hc'
    simp only [set_osec_offsets_go, List.mem_cons] at hc'
    rcases hc' with h | h
    · obtain ⟨h1, h2⟩ := hpre c (by simp)
      have := osec_step_props fileoff vaddr c h1 h2
      subst h
      exact ⟨this.2.2.1, this.2.2.2⟩
    · exact ih (fun x hx => hpre x (by simp [hx])) _ _ c' h

/-- C4: after `set_osec_offsets` runs over any chunk list whose alignments are
powers of two at most `PAGE_SIZE`, every chunk has `sh_offset` a multiple of
`sh_addralign`, and every `SHF_ALLOC` chunk has
`sh_addr % PAGE_SIZE = sh_offset % PAGE_SIZE`. -/
theorem C4_osec_offsets_aligned (image_base : Nat) (chunks : List OutputChunk)
    (hpre : ∀ c ∈ chunks, (∃ k, c.shdr.sh_addralign = 2 ^ k) ∧
      c.shdr.sh_addralign ≤ PAGE_SIZE) :
    ∀ c' ∈ (set_osec_offsets image_base chunks).1,
      c'.shdr.sh_offset % c'.shdr.sh_addralign = 0 ∧
      (c'.shdr.sh_flags &&& SHF_ALLOC != 0 →
        c'.shdr.sh_addr % PAGE_SIZE = c'.shdr.sh_offset % PAGE_SIZE) :=
  set_osec_offsets_go_props chunks hpre 0 image_base

/-- Concrete chunks for exercising `set_osec_offsets`. -/
def c4chunk1 : OutputChunk :=
  { starts_new_ptload := true,
    shdr := { sh_type := SHT_PROGBITS, sh_flags := SHF_ALLOC, sh_size := 100,
              sh_addralign := 16 } }
def c4chunk2 : OutputChunk :=
  { shdr := { sh_type := SHT_NOBITS, sh_flags := SHF_ALLOC + SHF_WRITE,
              sh_size := 64, sh_addralign := 32 } }

theorem C4_witness :
    (((set_osec_offsets 2097152 [c4chunk1, c4chunk2]).1.getD 0 default).shdr.sh_offset %
      ((set_osec_offsets 2097152 [c4chunk1, c4chunk2]).1.getD 0 default).shdr.sh_addralign = 0) ∧
    (((set_osec_offsets 2097152 [c4chunk1, c4chunk2]).1.getD 1 default).shdr.sh_addr %
      PAGE_SIZE =
     ((set_osec_offsets 2097152 [c4chunk1, c4chunk2]).1.getD 1 default).shdr.sh_offset %
      PAGE_SIZE) := by
  have h := C4_osec_offsets_aligned 2097152 [c4chunk1, c4chunk2] (by
    intro c hc
    simp only [List.mem_cons, List.not_mem_nil, or_false] at hc
    rcases hc with h | h <;> subst h
    · exact ⟨⟨4, rfl⟩, by norm_num [c4chunk1, PAGE_SIZE]⟩
    · exact ⟨⟨5, rfl⟩, by norm_num [c4chunk2, PAGE_SIZE]⟩)
  refine ⟨(h _ ?_).1, (h _ ?_).2 (by decide)⟩
  · decide
  · decide

/-! ## Mergeable-string owner resolution (main.cc:210-225) -/

/-- A claimant in the string-piece owner election: a `MergeableSection`
identity together with its file's priority. -/
structure Claimant where
  id : Nat
  priority : Nat
  deriving DecidableEq, Repr

/-- One sequentialized round of the compare-and-swap claiming loop of
`handle_mergeable_strings` (main.cc:219-223): the claimant replaces the
current owner exactly when there is no owner or the owner's file priority is
larger. -/
def claimStep (owner : Option Claimant) (isec : Claimant) : Option Claimant :=
  match owner with
  | none => some isec
  | some cur => if cur.priority > isec.priority then some isec else some cur

/-- The owner of a string piece after every live containing section has
claimed it once, in the given sequential order (`frag.isec` starts null). -/
def resolveOwner (claimants : List Claimant) : Option Claimant :=
  claimants.foldl claimStep none

theorem resolveOwner_go (claimants : List Claimant) (m : Claimant) :
    ∃ w, claimants.foldl claimStep (some m) = some w ∧ (w = m ∨ w ∈ claimants) ∧
      w.priority ≤ m.priority ∧ ∀ c ∈ claimants, w.priority ≤ c.priority := by
  induction claimants generalizing m with
  | nil => exact ⟨m, rfl, Or.inl rfl, Nat.le_refl _, by simp⟩
  | cons c cs ih =>
    simp only [List.foldl_cons, claimStep]
    split
    · rename_i hlt
      obtain ⟨w, hw, hmem, hle, hall⟩ := ih c
      refine ⟨w, hw, ?_, by omega, ?_⟩
      · rcases hmem with h | h
        · exact Or.inr (by simp [h])
        · exact Or.inr (by simp [h])
      · intro x hx
        simp only [List.mem_cons] at hx
        rcases hx with h | h
        · subst h; exact hle
        · exact hall x h
    · rename_i hge
      obtain ⟨w, hw, hmem, hle, hall⟩ := ih m
      refine ⟨w, hw, ?_, hle, ?_⟩
      · rcases hmem with h | h
        · exact Or.inl h
        · exact Or.inr (by simp [h])
      · intro x hx
        simp only [List.mem_cons] at hx
        rcases hx with h | h
        · subst h; omega
        · exact hall x h

/-- C3: after the owner-resolution pass, under any sequentialization of the
compare-and-swap claiming loop, a live string piece claimed by at least one
live mergeable section has exactly one owner, that owner is one of the
claiming sections, and its file priority is minimal among all claimants. -/
theorem C3_string_piece_owner (claimants : List Claimant)
    (hne : claimants ≠ []) :
    ∃ w, resolveOwner claimants = some w ∧ w ∈ claimants ∧
      ∀ c ∈ claimants, w.priority ≤ c.priority := by
  match claimants, hne with
  | c :: cs, _ =>
    unfold resolveOwner
    simp only [List.foldl_cons, claimStep]
    obtain ⟨w, hw, hmem, hle, hall⟩ := resolveOwner_go cs c
    refine ⟨w, hw, ?_, ?_⟩
    · rcases hmem with h | h
      · exact by simp [h]
      · exact by simp [h]
    · intro x hx
      simp only [List.mem_cons] at hx
      rcases hx with h | h
      · subst h; exact hle
      · exact hall x h

/-- Witness for C3: three files with priorities 5, 2, 9 claiming the same
piece; a unique owner of minimal priority exists. -/
theorem C3_witness :
    ((resolveOwner [⟨1, 5⟩, ⟨2, 2⟩, ⟨3, 9⟩]).map Claimant.priority).getD 99 = 2 := by
  obtain ⟨w, hw, hmem, hmin⟩ :=
    C3_string_piece_owner [⟨1, 5⟩, ⟨2, 2⟩, ⟨3, 9⟩] (by decide)
  rw [hw]
  have h2 : w.priority ≤ 2 := hmin ⟨2, 2⟩ (by decide)
  have h5 : w.priority = 5 ∨ w.priority = 2 ∨ w.priority = 9 := by
    simp only [List.mem_cons, List.not_mem_nil, or_false] at hmem
    rcases hmem with h | h | h <;> rw [h] <;> simp
  simp only [Option.map_some', Option.getD_some]
  omega

/-! ## Input-section offsets within an output section
(main.cc:147 `split`, main.cc:353 `set_isec_offsets`) -/

/-- Embeds the `split` helper (main.cc:147): cut the member list into slices
of `unit` elements, with a final shorter slice holding the remainder.
The source loops while `span.size() >= unit`; the `0 < unit` guard restricts
the embedding to the terminating case (all call sites pass a positive unit). -/
def split (unit : Nat) (l : List ElfShdr) : List (List ElfShdr) :=
  if h : 0 < unit ∧ unit ≤ l.length then
    l.take unit :: split unit (l.drop unit)
  else if l = [] then [] else [l]
termination_by l.length
decreasing_by simp only [List.length_drop]; omega

theorem split_flatten (unit : Nat) (l : List ElfShdr) :
    (split unit l).flatten = l := by
  rw [split]
  split
  · rename_i h
    rw [List.flatten_cons, split_flatten unit (l.drop unit), List.take_append_drop]
  · split
    · rename_i h
      rw [h]
      rfl
    · simp
termination_by l.length
decreasing_by simp only [List.length_drop]; omega

/-- One slice pass of `set_isec_offsets` (main.cc:364-377): starting from
`off` and running alignment `align`, assign each member an aligned offset,
and return the offsets, the final `off` (the slice size) and the final
`align` (the slice's maximum alignment). -/
def slicePass (off align : Nat) : List ElfShdr → List Nat × Nat × Nat
  | [] => ([], off, align)
  | c :: cs =>
    let o := align_to off c.sh_addralign
    let r := slicePass (o + c.sh_size) (max align c.sh_addralign) cs
    (o :: r.1, r.2)

/-- The serial combination pass (main.cc:381-383): slice start offsets,
`start[0] = 0` and `start[i] = align_to(start[i-1] + size[i-1], align)`. -/
def startList (align cur : Nat) : List Nat → List Nat
  | [] => []
  | sz :: rest => cur :: startList align (align_to (cur + sz) align) rest

/-- Models `*std::max_element(...)` over a list of positive values
(main.cc:379): the maximum, `0` only on the empty list. -/
def maxElem (l : List Nat) : Nat := l.foldl max 0

/-- Embeds `set_isec_offsets` for one output section (main.cc:356-392):
returns the member offsets (in member order), `sh_size` and `sh_addralign`.
The second parallel pass adds `start[i]` to every member offset of slice
`i ≥ 1`; since `start[0] = 0` the embedding shifts every slice uniformly. -/
def set_isec_offsets (unit : Nat) (members : List ElfShdr) :
    List Nat × Nat × Nat :=
  let slices := split unit members
  let results := slices.map (slicePass 0 1)
  let sizes := results.map (fun r => r.2.1)
  let align := maxElem (results.map (fun r => r.2.2))
  let starts := startList align 0 sizes
  let offsets :=
    (List.zipWith (fun st r => r.1.map (fun o => o + st)) starts results).flatten
  (offsets, starts.getLast?.getD 0 + sizes.getLast?.getD 0, align)

/-- `Packed lo hi cs os`: `os` assigns each member of `cs` an offset so that
offsets start at `lo` or later, each offset is aligned, consecutive ranges do
not overlap, and all ranges end by `hi`. -/
def Packed : Nat → Nat → List ElfShdr → List Nat → Prop
  | lo, hi, [], [] => lo ≤ hi
  | lo, hi, c :: cs, o :: os =>
    lo ≤ o ∧ c.sh_addralign ∣ o ∧ Packed (o + c.sh_size) hi cs os
  | _, _, _, _ => False

theorem Packed.length_eq : ∀ {lo hi : Nat} {cs : List ElfShdr} {os : List Nat},
    Packed lo hi cs os → cs.length = os.length
  | _, _, [], [], _ => rfl
  | _, _, _ :: _, _ :: _, h => by
    simp only [List.length_cons]
    exact congrArg (· + 1) (Packed.length_eq h.2.2)
  | _, _, [], _ :: _, h => absurd h (by simp [Packed])
  | _, _, _ :: _, [], h => absurd h (by simp [Packed])

theorem Packed.le_hi : ∀ {lo hi : Nat} {cs : List ElfShdr} {os : List Nat},
    Packed lo hi cs os → lo ≤ hi
  | _, _, [], [], h => h
  | _, _, c :: _, o :: _, h => by
    have h3 := Packed.le_hi h.2.2
    have h1 := h.1
    omega
  | _, _, [], _ :: _, h => absurd h (by simp [Packed])
  | _, _, _ :: _, [], h => absurd h (by simp [Packed])

theorem Packed.mono : ∀ {lo hi lo' hi' : Nat} {cs : List ElfShdr} {os : List Nat},
    lo' ≤ lo → hi ≤ hi' → Packed lo hi cs os → Packed lo' hi' cs os
  | _, _, _, _, [], [], h1, h2, h => by
    simp only [Packed] at *
    omega
  | _, _, _, _, c :: cs, o :: os, h1, h2, h =>
    ⟨by have := h.1; omega, h.2.1, Packed.mono (Nat.le_refl _) h2 h.2.2⟩
  | _, _, _, _, [], _ :: _, _, _, h => absurd h (by simp [Packed])
  | _, _, _, _, _ :: _, [], _, _, h => absurd h (by simp [Packed])

theorem Packed.append : ∀ {lo m hi : Nat} {cs1 cs2 : List ElfShdr}
    {os1 os2 : List Nat}, Packed lo m cs1 os1 → Packed m hi cs2 os2 →
    Packed lo hi (cs1 ++ cs2) (os1 ++ os2)
  | _, _, _, [], cs2, [], os2, h1, h2 => by
    simp only [List.nil_append]
    exact Packed.mono h1 (Nat.le_refl _) h2
  | _, _, _, c :: cs1, cs2, o :: os1, os2, h1, h2 =>
    ⟨h1.1, h1.2.1, Packed.append h1.2.2 h2⟩
  | _, _, _, [], _, _ :: _, _, h1, _ => absurd h1 (by simp [Packed])
  | _, _, _, _ :: _, _, [], _, h1, _ => absurd h1 (by simp [Packed])

theorem Packed.shift {s : Nat} : ∀ {lo hi : Nat} {cs : List ElfShdr}
    {os : List Nat}, (∀ c ∈ cs, c.sh_addralign ∣ s) → Packed lo hi cs os →
    Packed (lo + s) (hi + s) cs (os.map (fun o => o + s))
  | _, _, [], [], _, h => by simp only [List.map_nil, Packed] at *; omega
  | _, _, c :: cs, o :: os, hdvd, h => by
    show Packed _ _ (c :: cs) ((o + s) :: os.map (fun o => o + s))
    refine ⟨by have := h.1; omega, ?_, ?_⟩
    · exact Nat.dvd_add h.2.1 (hdvd c (by simp))
    · have h2 := Packed.shift (s := s) (fun x hx => hdvd x (by simp [hx])) h.2.2
      exact Packed.mono (by omega) (Nat.le_refl _) h2
  | _, _, [], _ :: _, _, h => absurd h (by simp [Packed])
  | _, _, _ :: _, [], _, h => absurd h (by simp [Packed])

theorem Packed.getD_props : ∀ {lo hi : Nat} {cs : List ElfShdr} {os : List Nat},
    Packed lo hi cs os → ∀ i, i < cs.length →
    lo ≤ os.getD i 0 ∧ (cs.getD i default).sh_addralign ∣ os.getD i 0 ∧
      os.getD i 0 + (cs.getD i default).sh_size ≤ hi
  | _, _, [], _, _, i, hi2 => absurd hi2 (by simp)
  | _, _, _ :: _, [], h, _, _ => absurd h (by simp [Packed])
  | _, _, c :: cs, o :: os, h, 0, _ => ⟨h.1, h.2.1, Packed.le_hi h.2.2⟩
  | lo, hi, c :: cs, o :: os, h, i + 1, hlen => by
    have hrec := Packed.getD_props h.2.2 i (by simp at hlen; omega)
    refine ⟨?_, hrec.2.1, hrec.2.2⟩
    have h1 := h.1
    have h2 := hrec.1
    simp only [List.getD_cons_succ]
    simp only [List.getD_cons_succ] at h2
    omega

theorem Packed.disjoint : ∀ {lo hi : Nat} {cs : List ElfShdr} {os : List Nat},
    Packed lo hi cs os → ∀ i j, i < j → j < cs.length →
    os.getD i 0 + (cs.getD i default).sh_size ≤ os.getD j 0
  | _, _, [], _, _, _, j, _, hj => absurd hj (by simp)
  | _, _, _ :: _, [], h, _, _, _, _ => absurd h (by simp [Packed])
  | _, _, c :: cs, o :: os, h, 0, j + 1, _, hj => by
    have hrec := Packed.getD_props h.2.2 j (by simp at hj; omega)
    simpa using hrec.1
  | _, _, c :: cs, o :: os, h, i + 1, j + 1, hij, hj => by
    have hrec := Packed.disjoint h.2.2 i j (by omega) (by simp at hj; omega)
    simpa using hrec

theorem slicePass_length : ∀ (cs : List ElfShdr) (off al : Nat),
    ((slicePass off al cs).1).length = cs.length
  | [], _, _ => rfl
  | c :: cs, off, al => by
    simp only [slicePass, List.length_cons]
    exact congrArg (· + 1) (slicePass_length cs _ _)

theorem slicePass_packed : ∀ (cs : List ElfShdr) (off al : Nat),
    (∀ c ∈ cs, 0 < c.sh_addralign) →
    Packed off (slicePass off al cs).2.1 cs (slicePass off al cs).1
  | [], off, al, _ => Nat.le_refl off
  | c :: cs, off, al, hpos => by
    have ha : 0 < c.sh_addralign := hpos c (by simp)
    have hrec := slicePass_packed cs (align_to off c.sh_addralign + c.sh_size)
      (max al c.sh_addralign) (fun x hx => hpos x (by simp [hx]))
    exact ⟨le_align_to off ha, dvd_align_to off _, hrec⟩

theorem slicePass_align_le : ∀ (cs : List ElfShdr) (off al : Nat),
    al ≤ (slicePass off al cs).2.2 ∧
      ∀ c ∈ cs, c.sh_addralign ≤ (slicePass off al cs).2.2
  | [], _, _ => ⟨Nat.le_refl _, by simp⟩
  | c :: cs, off, al => by
    have hrec := slicePass_align_le cs (align_to off c.sh_addralign + c.sh_size)
      (max al c.sh_addralign)
    constructor
    · exact Nat.le_trans (Nat.le_max_left _ _) hrec.1
    · intro x hx
      simp only [List.mem_cons] at hx
      rcases hx with h | h
      · subst h
        exact Nat.le_trans (Nat.le_max_right _ _) hrec.1
      · exact hrec.2 x h

theorem slicePass_align_mem : ∀ (cs : List ElfShdr) (off al : Nat),
    (slicePass off al cs).2.2 = al ∨
      ∃ c ∈ cs, (slicePass off al cs).2.2 = c.sh_addralign
  | [], _, _ => Or.inl rfl
  | c :: cs, off, al => by
    have hrec := slicePass_align_mem cs (align_to off c.sh_addralign + c.sh_size)
      (max al c.sh_addralign)
    rcases hrec with h | ⟨x, hx, he⟩
    · rcases max_choice al c.sh_addralign with hm | hm
      · exact Or.inl (by rw [show (slicePass off al (c :: cs)).2.2 =
          (slicePass (align_to off c.sh_addralign + c.sh_size)
            (max al c.sh_addralign) cs).2.2 from rfl, h, hm])
      · refine Or.inr ⟨c, by simp, ?_⟩
        rw [show (slicePass off al (c :: cs)).2.2 =
          (slicePass (align_to off c.sh_addralign + c.sh_size)
            (max al c.sh_addralign) cs).2.2 from rfl, h, hm]
    · exact Or.inr ⟨x, by simp [hx], he⟩

theorem foldl_max_init_le : ∀ (l : List Nat) (a : Nat), a ≤ l.foldl max a
  | [], _ => Nat.le_refl _
  | x :: xs, a =>
    Nat.le_trans (Nat.le_max_left a x) (foldl_max_init_le xs (max a x))

theorem foldl_max_le_mem : ∀ (l : List Nat) (a : Nat), ∀ x ∈ l, x ≤ l.foldl max a
  | [], _, _, hx => absurd hx (by simp)
  | y :: ys, a, x, hx => by
    simp only [List.mem_cons] at hx
    rcases hx with h | h
    · subst h
      exact Nat.le_trans (Nat.le_max_right a x) (foldl_max_init_le ys _)
    · exact foldl_max_le_mem ys (max a y) x h

theorem foldl_max_choice : ∀ (l : List Nat) (a : Nat),
    l.foldl max a = a ∨ l.foldl max a ∈ l
  | [], _ => Or.inl rfl
  | x :: xs, a => by
    have hfold : (x :: xs).foldl max a = xs.foldl max (max a x) := rfl
    rcases foldl_max_choice xs (max a x) with h | h
    · rcases max_choice a x with hm | hm
      · exact Or.inl (by rw [hfold, h, hm])
      · refine Or.inr ?_
        simp only [List.mem_cons]
        exact Or.inl (by rw [hfold, h, hm])
    · refine Or.inr ?_
      simp only [List.mem_cons]
      exact Or.inr (by rw [hfold]; exact h)

/-- The per-slice sizes vector of `set_isec_offsets` (main.cc:375). -/
def sliceSizes (slices : List (List ElfShdr)) : List Nat :=
  slices.map (fun s => (slicePass 0 1 s).2.1)

/-- The final member offsets: each slice's local offsets shifted by its
start offset (main.cc:385-388), in member order. -/
def sliceOffsets (al cur : Nat) (slices : List (List ElfShdr)) : List Nat :=
  (List.zipWith (fun st s => (slicePass 0 1 s).1.map (fun o => o + st))
    (startList al cur (sliceSizes slices)) slices).flatten

theorem getLast_getD_cons_cons (a b d1 d2 : Nat) (l : List Nat) :
    (a :: b :: l).getLast?.getD d1 = (b :: l).getLast?.getD d2 := by
  rw [List.getLast?_cons_cons]
  cases hq : (b :: l).getLast? with
  | none =>
    exfalso
    rw [List.getLast?_eq_none_iff] at hq
    exact List.cons_ne_nil b l hq
  | some x => rfl

theorem combine (al : Nat) (hal : 0 < al) : ∀ (slices : List (List ElfShdr)),
    ∀ cur : Nat, al ∣ cur →
    (∀ s ∈ slices, ∀ c ∈ s, 0 < c.sh_addralign ∧ c.sh_addralign ∣ al) →
    Packed cur
      ((startList al cur (sliceSizes slices)).getLast?.getD cur +
        (sliceSizes slices).getLast?.getD 0)
      slices.flatten (sliceOffsets al cur slices)
  | [], cur, hcur, hs => by
    show Packed cur (cur + 0) [] _
    simp only [sliceOffsets, sliceSizes, List.map_nil, startList, List.zipWith_nil_left,
      List.flatten_nil]
    show cur ≤ cur + 0
    omega
  | s :: ss, cur, hcur, hs => by
    have hpos : ∀ c ∈ s, 0 < c.sh_addralign := fun c hc => (hs s (by simp) c hc).1
    have hdvds : ∀ c ∈ s, c.sh_addralign ∣ cur :=
      fun c hc => dvd_trans (hs s (by simp) c hc).2 hcur
    have hp : Packed 0 (slicePass 0 1 s).2.1 s (slicePass 0 1 s).1 :=
      slicePass_packed s 0 1 hpos
    have hsh := Packed.shift (s := cur) hdvds hp
    have hhead : Packed cur ((slicePass 0 1 s).2.1 + cur) s
        ((slicePass 0 1 s).1.map (fun o => o + cur)) :=
      Packed.mono (by omega) (Nat.le_refl _) hsh
    have hsz : sliceSizes (s :: ss) = (slicePass 0 1 s).2.1 :: sliceSizes ss := rfl
    have hoff : sliceOffsets al cur (s :: ss) =
        ((slicePass 0 1 s).1.map (fun o => o + cur)) ++
          sliceOffsets al (align_to (cur + (slicePass 0 1 s).2.1) al) ss := by
      simp only [sliceOffsets, hsz, startList, List.zipWith_cons_cons, List.flatten_cons]
      rfl
    cases ss with
    | nil =>
      rw [hoff]
      simp only [sliceOffsets, sliceSizes, List.map_nil, List.map_cons, startList,
        List.zipWith_nil_left, List.flatten_nil, List.append_nil,
        List.flatten_cons, List.getLast?_singleton, Option.getD_some]
      exact Packed.mono (Nat.le_refl _) (by omega) hhead
    | cons s2 ss2 =>
      have hrec := combine al hal (s2 :: ss2)
        (align_to (cur + (slicePass 0 1 s).2.1) al) (dvd_align_to _ _)
        (fun x hx => hs x (by simp [hx]))
      have hle : (slicePass 0 1 s).2.1 + cur ≤
          align_to (cur + (slicePass 0 1 s).2.1) al := by
        have := le_align_to (cur + (slicePass 0 1 s).2.1) hal
        omega
      have hchain := Packed.append (Packed.mono (Nat.le_refl _) hle hhead) hrec
      rw [hoff]
      show Packed cur
        ((startList al cur (sliceSizes (s :: s2 :: ss2))).getLast?.getD cur +
          (sliceSizes (s :: s2 :: ss2)).getLast?.getD 0) ((s :: s2 :: ss2).flatten) _
      have hsz2 : sliceSizes (s :: s2 :: ss2) =
          (slicePass 0 1 s).2.1 :: (slicePass 0 1 s2).2.1 :: sliceSizes ss2 := rfl
      rw [hsz2]
      rw [show startList al cur
          ((slicePass 0 1 s).2.1 :: (slicePass 0 1 s2).2.1 :: sliceSizes ss2) =
        cur :: startList al (align_to (cur + (slicePass 0 1 s).2.1) al)
          ((slicePass 0 1 s2).2.1 :: sliceSizes ss2) from rfl]
      rw [show startList al (align_to (cur + (slicePass 0 1 s).2.1) al)
          ((slicePass 0 1 s2).2.1 :: sliceSizes ss2) =
        align_to (cur + (slicePass 0 1 s).2.1) al ::
          startList al (align_to (align_to (cur + (slicePass 0 1 s).2.1) al +
            (slicePass 0 1 s2).2.1) al) (sliceSizes ss2) from rfl]
      rw [getLast_getD_cons_cons _ _ _ (align_to (cur + (slicePass 0 1 s).2.1) al),
        getLast_getD_cons_cons _ _ _ 0, List.flatten_cons]
      exact hchain

theorem split_ne_nil (unit : Nat) (members : List ElfShdr) (hne : members ≠ []) :
    split unit members ≠ [] := by
  intro h
  have := split_flatten unit members
  rw [h] at this
  exact hne this.symm

/-- C5: after `set_isec_offsets` (for any positive slice unit, so for the
slice partition produced by `split`), the member offset ranges are pairwise
disjoint, every member offset is a multiple of its `sh_addralign`, and
`sh_size` bounds the end of every member's range — given that all member
alignments are powers of two and the member list is nonempty. -/
theorem C5_isec_offsets_disjoint (unit : Nat) (members : List ElfShdr)
    (hunit : 0 < unit) (hne : members ≠ [])
    (hpow : ∀ m ∈ members, ∃ k, m.sh_addralign = 2 ^ k) :
    (set_isec_offsets unit members).1.length = members.length ∧
    (∀ i j, i < j → j < members.length →
      (set_isec_offsets unit members).1.getD i 0 +
        (members.getD i default).sh_size ≤
      (set_isec_offsets unit members).1.getD j 0) ∧
    (∀ i, i < members.length →
      (set_isec_offsets unit members).1.getD i 0 %
        (members.getD i default).sh_addralign = 0) ∧
    (∀ i, i < members.length →
      (set_isec_offsets unit members).1.getD i 0 +
        (members.getD i default).sh_size ≤
      (set_isec_offsets unit members).2.1) := by
  set slices := split unit members with hsl
  have hflat : slices.flatten = members := split_flatten unit members
  have hsne : slices ≠ [] := split_ne_nil unit members hne
  set AL := maxElem ((slices.map (slicePass 0 1)).map (fun r => r.2.2)) with hALdef
  -- every slice maximum alignment appears in the align list
  have hmemAlign : ∀ s ∈ slices, (slicePass 0 1 s).2.2 ≤ AL := by
    intro s hs
    apply foldl_max_le_mem
    simp only [List.map_map, List.mem_map]
    exact ⟨s, hs, rfl⟩
  have hALpos : 0 < AL := by
    match slices, hsne with
    | s :: ss, _ =>
      have h1 : (1 : Nat) ≤ (slicePass 0 1 s).2.2 := (slicePass_align_le s 0 1).1
      have h2 := hmemAlign s (by simp)
      omega
  have hALfold : AL =
      List.foldl max 0 ((slices.map (slicePass 0 1)).map (fun r => r.2.2)) :=
    hALdef.trans rfl
  have hALpow : ∃ k, AL = 2 ^ k := by
    rcases foldl_max_choice ((slices.map (slicePass 0 1)).map (fun r => r.2.2)) 0
      with h | h
    · have h0 : AL = 0 := hALfold.trans h
      omega
    · obtain ⟨r, hr, hre⟩ := List.mem_map.mp h
      obtain ⟨s, hsmem, hsr⟩ := List.mem_map.mp hr
      have hALs : AL = (slicePass 0 1 s).2.2 := by
        rw [hALfold, ← hre, ← hsr]
      rcases slicePass_align_mem s 0 1 with h1 | ⟨c, hc, h1⟩
      · exact ⟨0, by rw [hALs]; exact h1⟩
      · have hcm : c ∈ members := by
          rw [← hflat]
          exact List.mem_flatten.mpr ⟨s, hsmem, hc⟩
        obtain ⟨k, hk⟩ := hpow c hcm
        exact ⟨k, by rw [hALs]; exact h1.trans hk⟩
  have hmemb : ∀ s ∈ slices, ∀ c ∈ s, 0 < c.sh_addralign ∧ c.sh_addralign ∣ AL := by
    intro s hs c hc
    have hcm : c ∈ members := by
      rw [← hflat]
      exact List.mem_flatten.mpr ⟨s, hs, hc⟩
    obtain ⟨j, hj⟩ := hpow c hcm
    obtain ⟨k, hk⟩ := hALpow
    have hpos : 0 < c.sh_addralign := by rw [hj]; positivity
    refine ⟨hpos, ?_⟩
    have hle : c.sh_addralign ≤ AL :=
      Nat.le_trans ((slicePass_align_le s 0 1).2 c hc) (hmemAlign s hs)
    rw [hj, hk]
    exact pow2_dvd_of_le (by rw [← hj, ← hk]; exact hle)
  have key := combine AL hALpos slices 0 (dvd_zero AL) hmemb
  rw [hflat] at key
  have heq1 : (set_isec_offsets unit members).1 = sliceOffsets AL 0 slices := by
    rw [hALdef]
    simp only [set_isec_offsets, sliceOffsets, sliceSizes, ← hsl]
    rw [List.zipWith_map_right]
    simp only [List.map_map]
    rfl
  have heq2 : (set_isec_offsets unit members).2.1 =
      (startList AL 0 (sliceSizes slices)).getLast?.getD 0 +
        (sliceSizes slices).getLast?.getD 0 := by
    rw [hALdef]
    simp only [set_isec_offsets, sliceSizes, ← hsl]
    simp only [List.map_map]
    rfl
  rw [heq1, heq2]
  refine ⟨(Packed.length_eq key).symm, ?_, ?_, ?_⟩
  · intro i j hij hj
    exact Packed.disjoint key i j hij hj
  · intro i hi
    exact mod_eq_zero_of_dvd (Packed.getD_props key i hi).2.1
  · intro i hi
    exact (Packed.getD_props key i hi).2.2

/-- Concrete member list for exercising `set_isec_offsets`. -/
def c5members : List ElfShdr :=
  [{ sh_addralign := 4, sh_size := 10 }, { sh_addralign := 1, sh_size := 3 },
   { sh_addralign := 8, sh_size := 5 }]

theorem C5_witness :
    (set_isec_offsets 2 c5members).1.length = 3 ∧
    (set_isec_offsets 2 c5members).1.getD 0 0 + 10 ≤
      (set_isec_offsets 2 c5members).1.getD 2 0 ∧
    (set_isec_offsets 2 c5members).1.getD 2 0 % 8 = 0 ∧
    (set_isec_offsets 2 c5members).1.getD 2 0 + 5 ≤
      (set_isec_offsets 2 c5members).2.1 := by
  have h := C5_isec_offsets_disjoint 2 c5members (by norm_num)
    (by simp [c5members]) (by
      intro m hm
      simp only [c5members, List.mem_cons, List.not_mem_nil, or_false] at hm
      rcases hm with h | h | h <;> rw [h]
      · exact ⟨2, rfl⟩
      · exact ⟨0, rfl⟩
      · exact ⟨3, rfl⟩)
  refine ⟨by simpa [c5members] using h.1, ?_, ?_, ?_⟩
  · have h2 := h.2.1 0 2 (by norm_num) (by simp [c5members])
    simpa [c5members] using h2
  · have h3 := h.2.2.1 2 (by simp [c5members])
    simpa [c5members] using h3
  · have h4 := h.2.2.2 2 (by simp [c5members])
    simpa [c5members] using h4

/-! ## Relocations: data model (mold.h types used by input_sections.cc) -/

/-- An ELF relocation record (`ElfRela`). The addend is a signed 64-bit
value, modelled as `Int`. -/
structure ElfRela where
  r_offset : Nat := 0
  r_sym : Nat := 0
  r_type : Nat := 0
  r_addend : Int := 0
  deriving DecidableEq, Repr

instance : Inhabited ElfRela := ⟨{}⟩

/-- A `StringPieceRef`: a possibly-null pointer to the merged string piece a
relocation targets, collapsed to the piece's `get_addr()` value, plus the
piece-relative addend. -/
structure StringPieceRef where
  pieceAddr : Option Nat := none
  addend : Int := 0
  deriving DecidableEq, Repr

/-- A `Symbol`, with the resolution result, the address getters collapsed to
their values (`get_addr()`, `get_plt_addr()`, ...), the `-1`-sentinel table
indices and the need-flags set by the relocation scanner. -/
structure Symbol where
  file : Option Nat := none
  is_placeholder : Bool := false
  is_imported : Bool := false
  type : Nat := 0
  addr : Nat := 0
  pltAddr : Nat := 0
  gotAddr : Nat := 0
  tlsgdAddr : Nat := 0
  tlsldAddr : Nat := 0
  gottpoffAddr : Nat := 0
  plt_idx : Int := -1
  tlsgd_idx : Int := -1
  tlsld_idx : Int := -1
  needs_got : Bool := false
  needs_plt : Bool := false
  needs_copyrel : Bool := false
  needs_tlsgd : Bool := false
  needs_tlsld : Bool := false
  needs_gottpoff : Bool := false
  deriving DecidableEq, Repr

instance : Inhabited Symbol := ⟨{}⟩

/-- The ambient state `copy_buf` reads: the section's base virtual address
`output_section->shdr.sh_addr + offset`, the `.got` base, `out::tls_end`,
and the file's symbol table. -/
structure CopyCtx where
  sh_addr : Nat := 0
  gotShAddr : Nat := 0
  tls_end : Nat := 0
  syms : Nat → Symbol := fun _ => {}

/-- Truncate a signed value to a `w`-byte machine word, as storing through
a `uN` pointer does. -/
def word (w : Nat) (v : Int) : Nat := (v % ((2 : Int) ^ (8 * w))).toNat

/-- Macro `S` (input_sections.cc:30): the string-piece address if the
relocation targets a merged piece, else the symbol's resolved address. -/
def mS (ref : StringPieceRef) (sym : Symbol) : Int :=
  match ref.pieceAddr with
  | some a => (a : Int)
  | none => (sym.addr : Int)

/-- Macro `A` (input_sections.cc:31): the piece-relative addend if the
relocation targets a merged piece, else `rel.r_addend`. -/
def mA (ref : StringPieceRef) (rel : ElfRela) : Int :=
  match ref.pieceAddr with
  | some _ => ref.addend
  | none => rel.r_addend

/-- Macro `P` (input_sections.cc:32): the address of the patched location. -/
def mP (ctx : CopyCtx) (rel : ElfRela) : Int := (ctx.sh_addr : Int) + rel.r_offset

/-- Macro `L` (input_sections.cc:33): the symbol's PLT entry address. -/
def mL (sym : Symbol) : Int := (sym.pltAddr : Int)

/-- Macro `G` (input_sections.cc:34): the symbol's GOT slot address minus the
`.got` base. -/
def mG (ctx : CopyCtx) (sym : Symbol) : Int := (sym.gotAddr : Int) - (ctx.gotShAddr : Int)

/-- Macro `GOT` (input_sections.cc:35): the `.got` base address. -/
def mGOT (ctx : CopyCtx) : Int := (ctx.gotShAddr : Int)

/-- What one iteration of the `copy_buf` relocation loop does to the output
buffer. `write off w v` stores the `w`-byte value `v` at `base + off`;
the relax constructors record the instruction rewrite of a TLS relaxation;
`skipped` marks a relocation consumed by `i++` of a preceding relaxation;
`noSym` marks a relocation skipped because its symbol has a null file;
`err` is the unknown-relocation error. -/
inductive Effect where
  | noSym
  | nop
  | write (off w val : Nat)
  | relaxTlsgd (insnOff : Int) (insn : List Nat) (patchOff : Int) (patchVal : Nat)
  | relaxTlsld (insnOff : Int) (insn : List Nat)
  | skipped
  | err
  deriving DecidableEq, Repr

/-- The 16-byte GD-to-LE sequence (input_sections.cc:79-82):
mov %fs:0,%rax; lea x@tpoff,%rax. -/
def tlsgdInsn : List Nat :=
  [0x64, 0x48, 0x8b, 0x04, 0x25, 0, 0, 0, 0, 0x48, 0x8d, 0x80, 0, 0, 0, 0]

/-- The 12-byte LD-to-LE sequence (input_sections.cc:93-95). -/
def tlsldInsn : List Nat :=
  [0x66, 0x66, 0x66, 0x64, 0x48, 0x8b, 0x04, 0x25, 0, 0, 0, 0]

/-- The switch of `InputSection::copy_buf` (input_sections.cc:37-121) for one
relocation with a resolved symbol: the effect, and whether the next
relocation is to be skipped (`i++`). -/
def relocEffect (ctx : CopyCtx) (rel : ElfRela) (ref : StringPieceRef)
    (sym : Symbol) : Effect × Bool :=
  let S := mS ref sym
  let A := mA ref rel
  let P := mP ctx rel
  if rel.r_type = R_X86_64_NONE then (.nop, false)
  else if rel.r_type = R_X86_64_64 then
    (.write rel.r_offset 8 (word 8 (S + A)), false)
  else if rel.r_type = R_X86_64_PC32 then
    (.write rel.r_offset 4 (word 4 (S + A - P)), false)
  else if rel.r_type = R_X86_64_GOT32 then
    (.write rel.r_offset 8 (word 8 (mG ctx sym + A)), false)
  else if rel.r_type = R_X86_64_PLT32 then
    (if sym.plt_idx = -1 then Effect.write rel.r_offset 4 (word 4 (S + A - P))
     else Effect.write rel.r_offset 4 (word 4 (mL sym + A - P)), false)
  else if rel.r_type = R_X86_64_GOTPCREL ∨ rel.r_type = R_X86_64_GOTPCRELX ∨
      rel.r_type = R_X86_64_REX_GOTPCRELX then
    (.write rel.r_offset 4 (word 4 (mG ctx sym + mGOT ctx + A - P)), false)
  else if rel.r_type = R_X86_64_32 ∨ rel.r_type = R_X86_64_32S then
    (.write rel.r_offset 4 (word 4 (S + A)), false)
  else if rel.r_type = R_X86_64_16 then
    (.write rel.r_offset 2 (word 2 (S + A)), false)
  else if rel.r_type = R_X86_64_PC16 then
    (.write rel.r_offset 2 (word 2 (S + A - P)), false)
  else if rel.r_type = R_X86_64_8 then
    (.write rel.r_offset 1 (word 1 (S + A)), false)
  else if rel.r_type = R_X86_64_PC8 then
    (.write rel.r_offset 1 (word 1 (S + A - P)), false)
  else if rel.r_type = R_X86_64_TLSGD then
    if sym.tlsgd_idx = -1 then
      (.relaxTlsgd ((rel.r_offset : Int) - 4) tlsgdInsn ((rel.r_offset : Int) + 8)
        (word 4 (S - (ctx.tls_end : Int) + A + 4)), true)
    else
      (.write rel.r_offset 4 (word 4 ((sym.tlsgdAddr : Int) + A - P)), false)
  else if rel.r_type = R_X86_64_TLSLD then
    if sym.tlsld_idx = -1 then
      (.relaxTlsld ((rel.r_offset : Int) - 3) tlsldInsn, true)
    else
      (.write rel.r_offset 4 (word 4 ((sym.tlsldAddr : Int) + A - P)), false)
  else if rel.r_type = R_X86_64_DTPOFF32 ∨ rel.r_type = R_X86_64_TPOFF32 then
    (.write rel.r_offset 4 (word 4 (S + A - (ctx.tls_end : Int))), false)
  else if rel.r_type = R_X86_64_DTPOFF64 ∨ rel.r_type = R_X86_64_TPOFF64 then
    (.write rel.r_offset 8 (word 8 (S + A - (ctx.tls_end : Int))), false)
  else if rel.r_type = R_X86_64_GOTTPOFF then
    (.write rel.r_offset 4 (word 4 ((sym.gottpoffAddr : Int) + A - P)), false)
  else if rel.r_type = R_X86_64_PC64 then
    (.write rel.r_offset 8 (word 8 (S + A - P)), false)
  else if rel.r_type = R_X86_64_GOTPC32 then
    (.write rel.r_offset 4 (word 4 (mGOT ctx + A - P)), false)
  else (.err, false)

/-- The relocation loop of `copy_buf` (input_sections.cc:20-129): one effect
per relocation, in order; a null symbol file skips the relocation
(input_sections.cc:27-28); a relaxed TLSGD/TLSLD advances `i` once more,
consuming the following relocation. -/
def applyRels (ctx : CopyCtx) : List (ElfRela × StringPieceRef) → List Effect
  | [] => []
  | (rel, ref) :: rest =>
    let sym := ctx.syms rel.r_sym
    if sym.file = none then Effect.noSym :: applyRels ctx rest
    else
      let e := relocEffect ctx rel ref sym
      if e.2 then
        match rest with
        | [] => [e.1]
        | _ :: rest2 => e.1 :: Effect.skipped :: applyRels ctx rest2
      else e.1 :: applyRels ctx rest

/-- `InputSection::copy_buf` (input_sections.cc:8-10): nothing is written for
a `SHT_NOBITS` or empty section; otherwise the relocation loop runs. -/
def copy_buf (sh_type sh_size : Nat) (ctx : CopyCtx)
    (rels : List (ElfRela × StringPieceRef)) : List Effect :=
  if sh_type = SHT_NOBITS ∨ sh_size = 0 then [] else applyRels ctx rels

/-! ## C1: the relocation write table -/

/-- The relocation types enumerated by the claim's table (everything except
NONE, TLSGD and TLSLD). -/
def C1Types : List Nat :=
  [R_X86_64_64, R_X86_64_PC32, R_X86_64_GOT32, R_X86_64_PLT32,
   R_X86_64_GOTPCREL, R_X86_64_GOTPCRELX, R_X86_64_REX_GOTPCRELX,
   R_X86_64_32, R_X86_64_32S, R_X86_64_16, R_X86_64_PC16, R_X86_64_8,
   R_X86_64_PC8, R_X86_64_DTPOFF32, R_X86_64_TPOFF32, R_X86_64_DTPOFF64,
   R_X86_64_TPOFF64, R_X86_64_GOTTPOFF, R_X86_64_PC64, R_X86_64_GOTPC32]

/-- The write table as the claim (spec §4.7) states it, written from the
spec's words for the refinement comparison against `relocEffect`:
the width in bytes and the untruncated value for each listed relocation
type, `none` for any type outside the table. `S` is the string-piece
address when the relocation targets a merged piece and otherwise the
symbol's resolved address; `A` is the corresponding addend;
`P = output_section.addr + isec.offset + rel.offset`. -/
def specTable (ctx : CopyCtx) (rel : ElfRela) (ref : StringPieceRef)
    (sym : Symbol) : Option (Nat × Int) :=
  let S := mS ref sym
  let A := mA ref rel
  let P := mP ctx rel
  let G := mG ctx sym
  let GOT := mGOT ctx
  let L := mL sym
  if rel.r_type = R_X86_64_64 then some (8, S + A)
  else if rel.r_type = R_X86_64_PC32 then some (4, S + A - P)
  else if rel.r_type = R_X86_64_GOT32 then some (8, G + A)
  else if rel.r_type = R_X86_64_PLT32 then
    some (4, (if sym.plt_idx = -1 then S else L) + A - P)
  else if rel.r_type = R_X86_64_GOTPCREL ∨ rel.r_type = R_X86_64_GOTPCRELX ∨
      rel.r_type = R_X86_64_REX_GOTPCRELX then some (4, G + GOT + A - P)
  else if rel.r_type = R_X86_64_32 ∨ rel.r_type = R_X86_64_32S then
    some (4, S + A)
  else if rel.r_type = R_X86_64_16 then some (2, S + A)
  else if rel.r_type = R_X86_64_PC16 then some (2, S + A - P)
  else if rel.r_type = R_X86_64_8 then some (1, S + A)
  else if rel.r_type = R_X86_64_PC8 then some (1, S + A - P)
  else if rel.r_type = R_X86_64_DTPOFF32 ∨ rel.r_type = R_X86_64_TPOFF32 then
    some (4, S + A - (ctx.tls_end : Int))
  else if rel.r_type = R_X86_64_DTPOFF64 ∨ rel.r_type = R_X86_64_TPOFF64 then
    some (8, S + A - (ctx.tls_end : Int))
  else if rel.r_type = R_X86_64_GOTTPOFF then
    some (4, (sym.gottpoffAddr : Int) + A - P)
  else if rel.r_type = R_X86_64_PC64 then some (8, S + A - P)
  else if rel.r_type = R_X86_64_GOTPC32 then some (4, GOT + A - P)
  else none

/-- Input refuting C1 as stated: a TLSGD relocation (tlsgd_idx none) followed
by a paired PLT32, both on a resolved symbol. -/
def c1ctx : CopyCtx :=
  { sh_addr := 4096, gotShAddr := 8192, tls_end := 12288,
    syms := fun _ => { file := some 1, addr := 100 } }
def c1gdRel : ElfRela := { r_offset := 16, r_type := R_X86_64_TLSGD }
def c1pltRel : ElfRela := { r_offset := 20, r_type := R_X86_64_PLT32 }

/-- C1 counterexample: the claim says every type outside its table is an
error and that a PLT32 on a resolved symbol gets a `u32` write. On this
input `copy_buf` relaxes the TLSGD (type 19, outside the table, no error)
and skips the paired PLT32 entirely, writing nothing for it. -/
theorem C1_counterexample :
    c1gdRel.r_type ∉ C1Types ∧ c1gdRel.r_type ≠ R_X86_64_NONE ∧
    (c1ctx.syms c1gdRel.r_sym).file ≠ none ∧
    (c1ctx.syms c1pltRel.r_sym).file ≠ none ∧
    (relocEffect c1ctx c1gdRel {} (c1ctx.syms c1gdRel.r_sym)).1 ≠ Effect.err ∧
    copy_buf SHT_PROGBITS 32 c1ctx [(c1gdRel, {}), (c1pltRel, {})] =
      [Effect.relaxTlsgd 12 tlsgdInsn 24 (word 4 (100 - 12288 + 0 + 4)),
       Effect.skipped] := by
  refine ⟨by decide, by decide, by decide, by decide, by decide, ?_⟩
  decide

/-- C1, amended: for a relocation whose symbol has a non-null file, every
type in the claim's table produces exactly the table's write (width and
value, truncated to the width); NONE writes nothing; every type outside the
table other than TLSGD and TLSLD (which relax, possibly skipping their
paired relocation) is an error; and a NOBITS or empty section produces no
writes at all. -/
theorem C1_reloc_write_table (ctx : CopyCtx) (rel : ElfRela)
    (ref : StringPieceRef) (sym : Symbol) (hfile : sym.file ≠ none) :
    (rel.r_type ∈ C1Types →
      ∃ w v, specTable ctx rel ref sym = some (w, v) ∧
        relocEffect ctx rel ref sym =
          (Effect.write rel.r_offset w (word w v), false)) ∧
    (rel.r_type = R_X86_64_NONE →
      relocEffect ctx rel ref sym = (Effect.nop, false)) ∧
    (rel.r_type ∉ C1Types → rel.r_type ≠ R_X86_64_NONE →
      rel.r_type ≠ R_X86_64_TLSGD → rel.r_type ≠ R_X86_64_TLSLD →
      relocEffect ctx rel ref sym = (Effect.err, false)) ∧
    (∀ ty sz rels2, ty = SHT_NOBITS ∨ sz = 0 → copy_buf ty sz ctx rels2 = []) := by
  obtain ⟨roff, rsym, rty, radd⟩ := rel
  refine ⟨?_, ?_, ?_, ?_⟩
  · intro hmem
    simp only [C1Types, List.mem_cons, List.not_mem_nil, or_false] at hmem
    rcases hmem with h | h | h | h | h | h | h | h | h | h | h | h | h | h | h |
      h | h | h | h | h <;> subst h
    · exact ⟨_, _, rfl, rfl⟩
    · exact ⟨_, _, rfl, rfl⟩
    · exact ⟨_, _, rfl, rfl⟩
    · refine ⟨_, _, rfl, ?_⟩
      by_cases hp : sym.plt_idx = -1 <;>
        simp [relocEffect, R_X86_64_NONE, R_X86_64_64, R_X86_64_PC32,
          R_X86_64_GOT32, R_X86_64_PLT32, hp]
    · exact ⟨_, _, rfl, rfl⟩
    · exact ⟨_, _, rfl, rfl⟩
    · exact ⟨_, _, rfl, rfl⟩
    · exact ⟨_, _, rfl, rfl⟩
    · exact ⟨_, _, rfl, rfl⟩
    · exact ⟨_, _, rfl, rfl⟩
    · exact ⟨_, _, rfl, rfl⟩
    · exact ⟨_, _, rfl, rfl⟩
    · exact ⟨_, _, rfl, rfl⟩
    · exact ⟨_, _, rfl, rfl⟩
    · exact ⟨_, _, rfl, rfl⟩
    · exact ⟨_, _, rfl, rfl⟩
    · exact ⟨_, _, rfl, rfl⟩
    · exact ⟨_, _, rfl, rfl⟩
    · exact ⟨_, _, rfl, rfl⟩
    · exact ⟨_, _, rfl, rfl⟩
  · intro h
    subst h
    rfl
  · intro hnmem hnone hgd hld
    simp only [C1Types, List.mem_cons, List.not_mem_nil, or_false, not_or] at hnmem
    simp only at hnone hgd hld
    simp only [relocEffect]
    rw [if_neg hnone]
    obtain ⟨h1, h2, h3, h4, h5, h6, h7, h8, h9, h10, h11, h12, h13, h14, h15,
      h16, h17, h18, h19, h20⟩ := hnmem
    rw [if_neg h1, if_neg h2, if_neg h3, if_neg h4,
      if_neg (by simp [h5, h6, h7]), if_neg (by simp [h8, h9]), if_neg h10,
      if_neg h11, if_neg h12, if_neg h13, if_neg hgd, if_neg hld,
      if_neg (by simp [h14, h15]), if_neg (by simp [h16, h17]), if_neg h18,
      if_neg h19, if_neg h20]
  · intro ty sz rels2 h
    simp only [copy_buf, if_pos h]

/-- Witness for the amended C1: the hypotheses are satisfiable; a PC32
relocation on a resolved symbol is in the table. -/
theorem C1_witness :
    (specTable c1ctx { r_offset := 8, r_type := R_X86_64_PC32 } {}
      (c1ctx.syms 0)).isSome = true := by
  obtain ⟨w, v, h1, h2⟩ :=
    (C1_reloc_write_table c1ctx { r_offset := 8, r_type := R_X86_64_PC32 } {}
      (c1ctx.syms 0) (by decide)).1 (by decide)
  rw [h1]
  rfl

/-! ## C2: TLSGD relaxation -/

/-- Input refuting C2 as stated: a TLSGD relocation with `tlsgd_idx` none
whose symbol has a null file; `copy_buf` skips it without relaxing. -/
def c2ctx : CopyCtx := { tls_end := 4096, syms := fun _ => {} }
def c2gdRel : ElfRela := { r_offset := 8, r_type := R_X86_64_TLSGD }

/-- C2 counterexample: the claim, quantified over every TLSGD relocation with
`tlsgd_idx = none`, also covers one whose symbol has a null defining file;
there `copy_buf` writes nothing at all instead of the 16-byte relaxation. -/
theorem C2_counterexample :
    (c2ctx.syms c2gdRel.r_sym).tlsgd_idx = -1 ∧
    c2gdRel.r_type = R_X86_64_TLSGD ∧
    applyRels c2ctx [(c2gdRel, {})] = [Effect.noSym] ∧
    (∀ a b c d, Effect.noSym ≠ Effect.relaxTlsgd a b c d) := by
  refine ⟨by decide, by decide, by decide, ?_⟩
  intro a b c d h
  exact Effect.noConfusion h

/-- C2, amended: for every R_X86_64_TLSGD relocation that `copy_buf` applies
(resolved symbol): with `tlsgd_idx` none it overwrites the 16 bytes at
`loc-4` with `64 48 8b 04 25 00 00 00 00 48 8d 80 00 00 00 00`, writes the
u32 `S - tls_end + A + 4` at `loc+8`, and skips the immediately following
relocation; with `tlsgd_idx` set it writes the u32
`tlsgd_addr + A - P` at `loc` and skips nothing. -/
theorem C2_tlsgd_relax (ctx : CopyCtx) (rel : ElfRela) (ref : StringPieceRef)
    (sym : Symbol) (hty : rel.r_type = R_X86_64_TLSGD) :
    tlsgdInsn = [0x64, 0x48, 0x8b, 0x04, 0x25, 0, 0, 0, 0,
                 0x48, 0x8d, 0x80, 0, 0, 0, 0] ∧
    (sym.tlsgd_idx = -1 →
      relocEffect ctx rel ref sym =
        (Effect.relaxTlsgd ((rel.r_offset : Int) - 4) tlsgdInsn
          ((rel.r_offset : Int) + 8)
          (word 4 (mS ref sym - (ctx.tls_end : Int) + mA ref rel + 4)), true)) ∧
    (sym.tlsgd_idx ≠ -1 →
      relocEffect ctx rel ref sym =
        (Effect.write rel.r_offset 4
          (word 4 ((sym.tlsgdAddr : Int) + mA ref rel - mP ctx rel)), false)) ∧
    (∀ pr rest, ctx.syms rel.r_sym = sym → sym.file ≠ none →
      sym.tlsgd_idx = -1 →
      applyRels ctx ((rel, ref) :: pr :: rest) =
        (relocEffect ctx rel ref sym).1 :: Effect.skipped ::
          applyRels ctx rest) ∧
    (∀ rest, ctx.syms rel.r_sym = sym → sym.file ≠ none →
      sym.tlsgd_idx ≠ -1 →
      applyRels ctx ((rel, ref) :: rest) =
        (relocEffect ctx rel ref sym).1 :: applyRels ctx rest) := by
  obtain ⟨roff, rsym, rty, radd⟩ := rel
  simp only at hty
  subst hty
  have heff : ∀ h : sym.tlsgd_idx = -1,
      relocEffect ctx ⟨roff, rsym, R_X86_64_TLSGD, radd⟩ ref sym =
        (Effect.relaxTlsgd ((roff : Int) - 4) tlsgdInsn ((roff : Int) + 8)
          (word 4 (mS ref sym - (ctx.tls_end : Int) + mA ref ⟨roff, rsym,
            R_X86_64_TLSGD, radd⟩ + 4)), true) := by
    intro h
    simp [relocEffect, R_X86_64_NONE, R_X86_64_64, R_X86_64_PC32,
      R_X86_64_GOT32, R_X86_64_PLT32, R_X86_64_GOTPCREL, R_X86_64_GOTPCRELX,
      R_X86_64_REX_GOTPCRELX, R_X86_64_32, R_X86_64_32S, R_X86_64_16,
      R_X86_64_PC16, R_X86_64_8, R_X86_64_PC8, R_X86_64_TLSGD, h]
  have heff2 : ∀ h : ¬sym.tlsgd_idx = -1,
      relocEffect ctx ⟨roff, rsym, R_X86_64_TLSGD, radd⟩ ref sym =
        (Effect.write roff 4 (word 4 ((sym.tlsgdAddr : Int) +
          mA ref ⟨roff, rsym, R_X86_64_TLSGD, radd⟩ -
          mP ctx ⟨roff, rsym, R_X86_64_TLSGD, radd⟩)), false) := by
    intro h
    simp [relocEffect, R_X86_64_NONE, R_X86_64_64, R_X86_64_PC32,
      R_X86_64_GOT32, R_X86_64_PLT32, R_X86_64_GOTPCREL, R_X86_64_GOTPCRELX,
      R_X86_64_REX_GOTPCRELX, R_X86_64_32, R_X86_64_32S, R_X86_64_16,
      R_X86_64_PC16, R_X86_64_8, R_X86_64_PC8, R_X86_64_TLSGD, h]
  refine ⟨rfl, heff, heff2, ?_, ?_⟩
  · intro pr rest hsym hfile hidx
    simp only [applyRels, hsym, if_neg hfile, heff hidx]
    simp
  · intro rest hsym hfile hidx
    simp only [applyRels, hsym, if_neg hfile, heff2 hidx]
    simp

/-- Witness for the amended C2: on a concrete resolved symbol with
`tlsgd_idx` none, the relaxation fires and the paired relocation is
skipped. -/
theorem C2_witness :
    applyRels c1ctx [(c1gdRel, {}), (c1pltRel, {})] =
      [(relocEffect c1ctx c1gdRel {} (c1ctx.syms c1gdRel.r_sym)).1,
       Effect.skipped] := by
  have h := (C2_tlsgd_relax c1ctx c1gdRel {} (c1ctx.syms c1gdRel.r_sym)
    rfl).2.2.2.1 (c1pltRel, {}) [] rfl (by decide) (by decide)
  simpa using h

/-! ## The relocation scanner (input_sections.cc:135-215) -/

/-- The set of relocation types the scanner's switch handles; any other type
reaches the `default:` error (input_sections.cc:211-212). -/
def isKnownRelType (t : Nat) : Bool :=
  t = R_X86_64_NONE ∨ t = R_X86_64_8 ∨ t = R_X86_64_16 ∨ t = R_X86_64_32 ∨
  t = R_X86_64_32S ∨ t = R_X86_64_64 ∨ t = R_X86_64_PC8 ∨ t = R_X86_64_PC16 ∨
  t = R_X86_64_PC32 ∨ t = R_X86_64_PC64 ∨ t = R_X86_64_GOT32 ∨
  t = R_X86_64_GOTPC32 ∨ t = R_X86_64_GOTPCREL ∨ t = R_X86_64_GOTPCRELX ∨
  t = R_X86_64_REX_GOTPCRELX ∨ t = R_X86_64_PLT32 ∨ t = R_X86_64_TLSGD ∨
  t = R_X86_64_TLSLD ∨ t = R_X86_64_TPOFF32 ∨ t = R_X86_64_TPOFF64 ∨
  t = R_X86_64_DTPOFF32 ∨ t = R_X86_64_DTPOFF64 ∨ t = R_X86_64_GOTTPOFF

/-- The need-flag update of the scanner's switch (input_sections.cc:148-213)
for one relocation on a resolved symbol. Unknown types record a deferred
error at the loop level and leave the symbol unchanged. -/
def scanStep (rel : ElfRela) (sym : Symbol) : Symbol :=
  if rel.r_type = R_X86_64_NONE then sym
  else if rel.r_type = R_X86_64_8 ∨ rel.r_type = R_X86_64_16 ∨
      rel.r_type = R_X86_64_32 ∨ rel.r_type = R_X86_64_32S ∨
      rel.r_type = R_X86_64_64 ∨ rel.r_type = R_X86_64_PC8 ∨
      rel.r_type = R_X86_64_PC16 ∨ rel.r_type = R_X86_64_PC32 ∨
      rel.r_type = R_X86_64_PC64 then
    if sym.is_imported then
      if sym.type = STT_OBJECT then { sym with needs_copyrel := true }
      else { sym with needs_plt := true }
    else sym
  else if rel.r_type = R_X86_64_GOT32 ∨ rel.r_type = R_X86_64_GOTPC32 ∨
      rel.r_type = R_X86_64_GOTPCREL ∨ rel.r_type = R_X86_64_GOTPCRELX ∨
      rel.r_type = R_X86_64_REX_GOTPCRELX then
    { sym with needs_got := true }
  else if rel.r_type = R_X86_64_PLT32 then
    if sym.is_imported ∨ sym.type = STT_GNU_IFUNC then
      { sym with needs_plt := true }
    else sym
  else if rel.r_type = R_X86_64_TLSGD then
    if sym.is_imported then { sym with needs_tlsgd := true } else sym
  else if rel.r_type = R_X86_64_TLSLD then
    if sym.is_imported then { sym with needs_tlsld := true } else sym
  else if rel.r_type = R_X86_64_TPOFF32 ∨ rel.r_type = R_X86_64_TPOFF64 ∨
      rel.r_type = R_X86_64_DTPOFF32 ∨ rel.r_type = R_X86_64_DTPOFF64 then sym
  else if rel.r_type = R_X86_64_GOTTPOFF then
    { sym with needs_gottpoff := true }
  else sym

/-- Point update of the file's symbol table. -/
def updSym (f : Nat → Symbol) (i : Nat) (s : Symbol) : Nat → Symbol :=
  fun j => if j = i then s else f j

/-- The scanner's mutable state: the file's symbol table, `file->has_error`
(set for unresolved symbols, input_sections.cc:143-146), and the deferred
`error(...)` flag for unknown relocation types. -/
structure ScanState where
  syms : Nat → Symbol := fun _ => {}
  has_error : Bool := false
  reloc_error : Bool := false

/-- The outcome of the scan loop: the final state, whether the
`assert(rels[i + 1]...)` at input_sections.cc:184/193 read past the end of
the relocation array (`oob`), and whether that assertion failed. -/
structure ScanOut where
  st : ScanState
  oob : Bool := false
  assert_failed : Bool := false

/-- The loop of `InputSection::scan_relocations` (input_sections.cc:139-214).
A TLSGD/TLSLD relocation first evaluates `assert(rels[i+1].r_type ==
R_X86_64_PLT32)`: with no following relocation this reads out of bounds;
with the assertion false the process aborts; a resolved non-imported
symbol then skips the paired PLT32 (`i++`). -/
def scan_relocations (st : ScanState) : List ElfRela → ScanOut
  | [] => { st := st }
  | rel :: rest =>
    let sym := st.syms rel.r_sym
    if sym.file = none ∨ sym.is_placeholder = true then
      scan_relocations { st with has_error := true } rest
    else if rel.r_type = R_X86_64_TLSGD ∨ rel.r_type = R_X86_64_TLSLD then
      match rest with
      | [] => { st := st, oob := true }
      | next :: rest2 =>
        if next.r_type ≠ R_X86_64_PLT32 then
          { st := st, assert_failed := true }
        else if sym.is_imported then
          scan_relocations
            { st with syms := updSym st.syms rel.r_sym (scanStep rel sym) }
            (next :: rest2)
        else scan_relocations st rest2
    else
      scan_relocations
        { st with
          syms := updSym st.syms rel.r_sym (scanStep rel sym),
          reloc_error := st.reloc_error || !(isKnownRelType rel.r_type) } rest

/-- `InputSection::scan_relocations` (input_sections.cc:136-137): a section
without `SHF_ALLOC` is not scanned at all. -/
def scanSection (sh_flags : Nat) (st : ScanState) (rels : List ElfRela) :
    ScanOut :=
  if sh_flags &&& SHF_ALLOC = 0 then { st := st } else scan_relocations st rels

/-! ## C7: need-flag classification -/

/-- Input refuting C7 as stated: a non-imported TLSGD followed by its paired
PLT32 on an imported symbol; the scanner consumes the PLT32 without setting
`needs_plt`. -/
def c7st : ScanState :=
  { syms := fun i => if i = 0 then { file := some 1 }
      else { file := some 2, is_imported := true } }
def c7rels : List ElfRela :=
  [{ r_type := R_X86_64_TLSGD }, { r_sym := 1, r_type := R_X86_64_PLT32 }]

/-- C7 counterexample: the second relocation is a PLT32 on a resolved,
imported symbol, yet after the scan `needs_plt` is still false, because the
relocation was consumed as the pair of the preceding non-imported TLSGD. -/
theorem C7_counterexample :
    (c7st.syms 1).is_imported = true ∧ (c7st.syms 1).file ≠ none ∧
    (c7st.syms 1).is_placeholder = false ∧
    (c7rels.getD 1 default).r_type = R_X86_64_PLT32 ∧
    ((scan_relocations c7st c7rels).st.syms 1).needs_plt = false := by
  decide

/-- C7, amended: for every relocation in an allocated section with a resolved
symbol that the scanner actually processes (a relocation consumed as the
pair of a preceding non-imported TLSGD/TLSLD is not processed), the
need-flag update is: direct/PC-relative family — if imported, set
`needs_copyrel` for STT_OBJECT and `needs_plt` otherwise; GOT family — set
`needs_got`; PLT32 — set `needs_plt` exactly when imported or STT_GNU_IFUNC;
in each case every other flag and field of the symbol is unchanged. -/
theorem C7_scan_need_flags (rel : ElfRela) (sym : Symbol) :
    (rel.r_type ∈ [R_X86_64_8, R_X86_64_16, R_X86_64_32, R_X86_64_32S,
        R_X86_64_64, R_X86_64_PC8, R_X86_64_PC16, R_X86_64_PC32,
        R_X86_64_PC64] →
      scanStep rel sym =
        if sym.is_imported then
          if sym.type = STT_OBJECT then { sym with needs_copyrel := true }
          else { sym with needs_plt := true }
        else sym) ∧
    (rel.r_type ∈ [R_X86_64_GOT32, R_X86_64_GOTPC32, R_X86_64_GOTPCREL,
        R_X86_64_GOTPCRELX, R_X86_64_REX_GOTPCRELX] →
      scanStep rel sym = { sym with needs_got := true }) ∧
    (rel.r_type = R_X86_64_PLT32 →
      scanStep rel sym =
        if sym.is_imported ∨ sym.type = STT_GNU_IFUNC then
          { sym with needs_plt := true }
        else sym) ∧
    (∀ (st : ScanState) (rest : List ElfRela), st.syms rel.r_sym = sym →
      sym.file ≠ none → sym.is_placeholder = false →
      rel.r_type ≠ R_X86_64_TLSGD → rel.r_type ≠ R_X86_64_TLSLD →
      scan_relocations st (rel :: rest) =
        scan_relocations
          { st with
            syms := updSym st.syms rel.r_sym (scanStep rel sym),
            reloc_error := st.reloc_error || !(isKnownRelType rel.r_type) }
          rest) := by
  obtain ⟨roff, rsym, rty, radd⟩ := rel
  refine ⟨?_, ?_, ?_, ?_⟩
  · intro hmem
    simp only [List.mem_cons, List.not_mem_nil, or_false] at hmem
    rcases hmem with h | h | h | h | h | h | h | h | h <;> subst h <;> rfl
  · intro hmem
    simp only [List.mem_cons, List.not_mem_nil, or_false] at hmem
    rcases hmem with h | h | h | h | h <;> subst h <;> rfl
  · intro h
    subst h
    rfl
  · intro st rest hsym hfile hplace hgd hld
    cases rest with
    | nil =>
      simp only [scan_relocations, hsym]
      rw [if_neg (by simp [hfile, hplace]), if_neg (by simp [hgd, hld])]
    | cons r2 rs =>
      simp only [scan_relocations, hsym]
      rw [if_neg (by simp [hfile, hplace]), if_neg (by simp [hgd, hld])]

/-- Witness for the amended C7: a GOT32 relocation sets `needs_got` and
nothing else on a concrete symbol. -/
theorem C7_witness :
    scanStep { r_sym := 3, r_type := R_X86_64_GOT32 } (c7st.syms 1) =
      { c7st.syms 1 with needs_got := true } :=
  (C7_scan_need_flags { r_sym := 3, r_type := R_X86_64_GOT32 }
    (c7st.syms 1)).2.1 (by decide)

/-! ## C9: unresolved symbols are deferred, not fatal -/

/-- C9: during `scan_relocations`, a relocation whose symbol has a null file
or is a placeholder only sets `file->has_error` and changes no symbol,
continuing with the remaining relocations (the abort is deferred to the
checkpoint after the scan); during `copy_buf`, a relocation whose symbol's
file is null is skipped entirely, writing nothing. -/
theorem C9_unresolved_deferred :
    (∀ (st : ScanState) (rel : ElfRela) (rest : List ElfRela),
      (st.syms rel.r_sym).file = none ∨
        (st.syms rel.r_sym).is_placeholder = true →
      scan_relocations st (rel :: rest) =
        scan_relocations { st with has_error := true } rest) ∧
    (∀ (ctx : CopyCtx) (rel : ElfRela) (ref : StringPieceRef)
        (rest : List (ElfRela × StringPieceRef)),
      (ctx.syms rel.r_sym).file = none →
      applyRels ctx ((rel, ref) :: rest) =
        Effect.noSym :: applyRels ctx rest) := by
  constructor
  · intro st rel rest h
    cases rest with
    | nil =>
      simp only [scan_relocations]
      rw [if_pos h]
    | cons r2 rs =>
      simp only [scan_relocations]
      rw [if_pos h]
  · intro ctx rel ref rest h
    simp only [applyRels]
    rw [if_pos h]

/-- Witness for C9: a relocation on the undefined default symbol sets
`has_error` and is skipped by `copy_buf`. -/
theorem C9_witness :
    (scan_relocations { } [{ r_type := R_X86_64_PC32 }]).st.has_error = true ∧
    applyRels c2ctx [({ r_type := R_X86_64_PC32 }, {})] = [Effect.noSym] := by
  constructor
  · rw [C9_unresolved_deferred.1 { } { r_type := R_X86_64_PC32 } []
      (Or.inl rfl)]
    rfl
  · rw [C9_unresolved_deferred.2 c2ctx { r_type := R_X86_64_PC32 } {} []
      rfl]
    rfl

/-! ## C10: the TLSGD/TLSLD lookahead and array bounds -/

def c10gd : ElfRela := { r_type := R_X86_64_TLSGD }

/-- C10 counterexample: the claim says the accesses are in bounds iff no
TLSGD/TLSLD relocation is last. Here a TLSGD is last, but its symbol is
unresolved, so the scanner takes the has_error path before the assertion
and never reads `rels[i+1]`: all accesses stay in bounds. -/
theorem C10_counterexample :
    [c10gd].getLast? = some c10gd ∧ c10gd.r_type = R_X86_64_TLSGD ∧
    (scan_relocations { } [c10gd]).oob = false := by
  decide

theorem scan_oob_false : ∀ (rels : List ElfRela) (st : ScanState),
    (∀ r, rels.getLast? = some r →
      r.r_type ≠ R_X86_64_TLSGD ∧ r.r_type ≠ R_X86_64_TLSLD) →
    (scan_relocations st rels).oob = false
  | [], _, _ => rfl
  | [rel], st, h => by
    have hr := h rel (by simp)
    simp only [scan_relocations]
    split
    · rfl
    · rw [if_neg (by simp [hr.1, hr.2])]
  | rel :: next :: rest, st, h => by
    have h2 : ∀ r, (next :: rest).getLast? = some r →
        r.r_type ≠ R_X86_64_TLSGD ∧ r.r_type ≠ R_X86_64_TLSLD :=
      fun r hr => h r (by rw [List.getLast?_cons_cons]; exact hr)
    simp only [scan_relocations]
    split
    · exact scan_oob_false (next :: rest) _ h2
    · split
      · split
        · rfl
        · split
          · exact scan_oob_false (next :: rest) _ h2
          · match rest, h2 with
            | [], _ => rfl
            | r2 :: rs, h2 =>
              exact scan_oob_false (r2 :: rs) _
                (fun r hr => h2 r (by rw [List.getLast?_cons_cons]; exact hr))
      · exact scan_oob_false (next :: rest) _ h2
termination_by rels => rels.length

/-- C10, amended: all relocation-array accesses of `scan_relocations` are in
bounds if no TLSGD/TLSLD is the last relocation; a trailing TLSGD/TLSLD
reads past the end exactly when the scanner reaches it with a resolved
symbol — a trailing TLSGD/TLSLD whose symbol is unresolved (or one consumed
as the pair of a preceding relocation) stays in bounds, with no diagnostic
in any case. -/
theorem C10_tls_lookahead_bounds :
    (∀ (rels : List ElfRela) (st : ScanState),
      (∀ r, rels.getLast? = some r →
        r.r_type ≠ R_X86_64_TLSGD ∧ r.r_type ≠ R_X86_64_TLSLD) →
      (scan_relocations st rels).oob = false) ∧
    (∀ (st : ScanState) (rel : ElfRela),
      (st.syms rel.r_sym).file ≠ none →
      (st.syms rel.r_sym).is_placeholder = false →
      rel.r_type = R_X86_64_TLSGD ∨ rel.r_type = R_X86_64_TLSLD →
      (scan_relocations st [rel]).oob = true) ∧
    (∀ (st : ScanState) (rel : ElfRela),
      (st.syms rel.r_sym).file = none ∨
        (st.syms rel.r_sym).is_placeholder = true →
      (scan_relocations st [rel]).oob = false) := by
  refine ⟨scan_oob_false, ?_, ?_⟩
  · intro st rel hfile hplace hty
    simp only [scan_relocations]
    rw [if_neg (by simp [hfile, hplace]), if_pos hty]
  · intro st rel h
    simp only [scan_relocations]
    rw [if_pos h]

/-- Witness for the amended C10: a resolved trailing TLSGD reads out of
bounds; a list ending in a PC32 stays in bounds. -/
theorem C10_witness :
    (scan_relocations c7st [c10gd]).oob = true ∧
    (scan_relocations c7st [{ r_type := R_X86_64_PC32 }]).oob = false := by
  constructor
  · exact C10_tls_lookahead_bounds.2.1 c7st c10gd (by decide) (by decide)
      (Or.inl rfl)
  · exact C10_tls_lookahead_bounds.1 [{ r_type := R_X86_64_PC32 }] c7st
      (by decide)


/-! ## C8: MergeableSection string splitting (input_sections.cc:229-250) -/

/-- One `data.find('\0')` + `substr` step (input_sections.cc:236-241):
the shortest null-terminated piece at the front (null included) and the rest
of the payload, or `none` when no null byte remains. -/
def takePiece : List Nat → Option (List Nat × List Nat)
  | [] => none
  | b :: rest =>
    if b = 0 then some ([b], rest)
    else
      match takePiece rest with
      | none => none
      | some (p, r) => some (b :: p, r)

theorem takePiece_spec : ∀ {l p r : List Nat}, takePiece l = some (p, r) →
    p ++ r = l ∧ p ≠ [] ∧ p.getLast? = some 0 ∧ ∀ b ∈ p.dropLast, b ≠ 0
  | [], p, r, h => by simp [takePiece] at h
  | b :: rest, p, r, h => by
    simp only [takePiece] at h
    by_cases hb : b = 0
    · rw [if_pos hb] at h
      simp only [Option.some.injEq, Prod.mk.injEq] at h
      obtain ⟨h1, h2⟩ := h
      subst hb
      rw [← h1, ← h2]
      exact ⟨rfl, by simp, by simp, by simp⟩
    · rw [if_neg hb] at h
      cases htp : takePiece rest with
      | none => rw [htp] at h; exact absurd h (by simp)
      | some pr =>
        obtain ⟨p', r'⟩ := pr
        rw [htp] at h
        simp only [Option.some.injEq, Prod.mk.injEq] at h
        obtain ⟨h1, h2⟩ := h
        obtain ⟨hap, hne, hlast, hbody⟩ := takePiece_spec htp
        subst h2
        rw [← h1]
        refine ⟨by simp [← hap], by simp, ?_, ?_⟩
        · rw [List.getLast?_cons]
          cases hp' : p'.getLast? with
          | none => exact absurd (List.getLast?_eq_none_iff.mp hp') hne
          | some x => simp [hp' ▸ hlast]
        · intro x hx
          rw [List.dropLast_cons_of_ne_nil hne] at hx
          simp only [List.mem_cons] at hx
          rcases hx with h | h
          · subst h; exact hb
          · exact hbody x h

theorem takePiece_length {l p r : List Nat} (h : takePiece l = some (p, r)) :
    r.length < l.length := by
  obtain ⟨hap, hne, _, _⟩ := takePiece_spec h
  have hlen := congrArg List.length hap
  rw [List.length_append] at hlen
  cases p with
  | nil => exact absurd rfl hne
  | cons x xs => simp only [List.length_cons] at hlen; omega

theorem takePiece_none : ∀ {l : List Nat}, takePiece l = none → (0 : Nat) ∉ l
  | [], _ => by simp
  | b :: rest, h => by
    simp only [takePiece] at h
    by_cases hb : b = 0
    · rw [if_pos hb] at h; exact absurd h (by simp)
    · rw [if_neg hb] at h
      cases htp : takePiece rest with
      | none =>
        have := takePiece_none htp
        simp only [List.mem_cons]
        rintro (h0 | h0)
        · exact hb h0.symm
        · exact this h0
      | some pr =>
        obtain ⟨p', r'⟩ := pr
        rw [htp] at h
        exact absurd h (by simp)

theorem zero_mem_of_getLast? {l : List Nat} (h : l.getLast? = some 0) :
    (0 : Nat) ∈ l := by
  obtain ⟨hne, heq⟩ := List.mem_getLast?_eq_getLast (Option.mem_def.mpr h)
  rw [heq]
  exact List.getLast_mem hne

theorem getLast?_append_piece (p rest : List Nat) (hp : p.getLast? = some 0) :
    (p ++ rest).getLast? = some 0 ↔ (rest = [] ∨ rest.getLast? = some 0) := by
  cases rest with
  | nil => simp [hp]
  | cons r2 rs =>
    rw [List.getLast?_append_cons]
    constructor
    · intro h
      exact Or.inr h
    · rintro (h | h)
      · exact absurd h (by simp)
      · exact h

/-- The piece-interning loop of the `MergeableSection` constructor
(input_sections.cc:233-246): the interned `(piece bytes, offset)` pairs and
whether the loop hit the `"string is not null terminated"` fatal error
(modelled from the spec: §4.4 "a section whose payload is not
null-terminated is fatal", so the loop stops at the error and interns
nothing from the unterminated tail). -/
def splitPieces (data : List Nat) (offset : Nat) :
    List (List Nat × Nat) × Bool :=
  match data with
  | [] => ([], false)
  | b :: rest0 =>
    match h : takePiece (b :: rest0) with
    | none => ([], true)
    | some (p, rest) =>
      let r := splitPieces rest (offset + p.length)
      ((p, offset) :: r.1, r.2)
termination_by data.length
decreasing_by exact takePiece_length h

/-- The expected consecutive offsets: each piece at the running sum of the
sizes before it. -/
def offsetsOf : Nat → List Nat → List Nat
  | _, [] => []
  | o, n :: ns => o :: offsetsOf (o + n) ns

theorem splitPieces_spec : ∀ (data : List Nat) (off : Nat),
    ((splitPieces data off).2 = true ↔
      ¬(data = [] ∨ data.getLast? = some 0)) ∧
    (∃ tail, (((splitPieces data off).1.map Prod.fst).flatten ++ tail = data ∧
      ((splitPieces data off).2 = false → tail = []))) ∧
    (∀ pr ∈ (splitPieces data off).1, pr.1 ≠ [] ∧ pr.1.getLast? = some 0 ∧
      ∀ b ∈ pr.1.dropLast, b ≠ 0) ∧
    ((splitPieces data off).1.map Prod.snd =
      offsetsOf off ((splitPieces data off).1.map (fun pr => pr.1.length)))
  | [], off => by
    refine ⟨by simp [splitPieces], ⟨[], by simp [splitPieces], fun _ => rfl⟩,
      by simp [splitPieces], by simp [splitPieces, offsetsOf]⟩
  | b :: rest0, off => by
    rw [splitPieces]
    cases htp : takePiece (b :: rest0) with
    | none =>
      have h0 := takePiece_none htp
      refine ⟨?_, ⟨b :: rest0, by simp, by simp⟩, by simp, by simp [offsetsOf]⟩
      simp only [true_iff, not_or]
      refine ⟨by simp, fun hc => ?_⟩
      exact h0 (zero_mem_of_getLast? hc)
    | some pr =>
      obtain ⟨p, rest⟩ := pr
      obtain ⟨hap, hne, hlast, hbody⟩ := takePiece_spec htp
      have hrec := splitPieces_spec rest (off + p.length)
      refine ⟨?_, ?_, ?_, ?_⟩
      · rw [hrec.1]
        have hiff := getLast?_append_piece p rest hlast
        rw [hap] at hiff
        constructor
        · intro hx hy
          apply hx
          rcases hy with hy | hy
          · exact absurd hy (by simp)
          · exact hiff.mp hy
        · intro hx hy
          apply hx
          exact Or.inr (hiff.mpr hy)
      · obtain ⟨tail, ht1, ht2⟩ := hrec.2.1
        refine ⟨tail, ?_, ht2⟩
        simp only [List.map_cons, List.flatten_cons, List.append_assoc, ht1]
        exact hap
      · intro x hx
        simp only [List.mem_cons] at hx
        rcases hx with h | h
        · subst h
          exact ⟨hne, hlast, hbody⟩
        · exact hrec.2.2.1 x h
      · simp only [List.map_cons, offsetsOf, List.cons.injEq, true_and]
        exact hrec.2.2.2
termination_by data off => data.length
decreasing_by exact takePiece_length htp

/-- C8: splitting a mergeable payload fails exactly when the payload is not
null-terminated (a non-empty suffix after the last null, or no null at
all); on failure only the pieces before the unterminated tail were interned;
a fully null-terminated payload splits into exactly its consecutive
null-terminated substrings (each non-empty, ending in the only null it
contains), interned at consecutive offsets. -/
theorem C8_mergeable_split (data : List Nat) :
    ((splitPieces data 0).2 = true ↔
      ¬(data = [] ∨ data.getLast? = some 0)) ∧
    (∃ tail, (((splitPieces data 0).1.map Prod.fst).flatten ++ tail = data ∧
      ((splitPieces data 0).2 = false → tail = []))) ∧
    (∀ pr ∈ (splitPieces data 0).1, pr.1 ≠ [] ∧ pr.1.getLast? = some 0 ∧
      ∀ b ∈ pr.1.dropLast, b ≠ 0) ∧
    ((splitPieces data 0).1.map Prod.snd =
      offsetsOf 0 ((splitPieces data 0).1.map (fun pr => pr.1.length))) :=
  splitPieces_spec data 0

/-- Witness for C8: the payload "hi\0w\0" splits without error and exactly
covers the payload. -/
theorem C8_witness :
    (splitPieces [104, 105, 0, 119, 0] 0).2 = false ∧
    (((splitPieces [104, 105, 0, 119, 0] 0).1.map Prod.fst).flatten =
      [104, 105, 0, 119, 0]) := by
  have h := C8_mergeable_split [104, 105, 0, 119, 0]
  have herr : (splitPieces [104, 105, 0, 119, 0] 0).2 = false := by
    cases hb : (splitPieces [104, 105, 0, 119, 0] 0).2
    · rfl
    · exact absurd (h.1.mp hb) (by simp)
  obtain ⟨tail, ht1, ht2⟩ := h.2.1
  rw [ht2 herr, List.append_nil] at ht1
  exact ⟨herr, ht1⟩

end Mold
